import Mathlib

/-!
Verification development for the syz-declextract merge pipeline
(`tools/syz-declextract/run.go`).

The Go file orchestrates per-file extraction, classifies the resulting
declaration fragments, renames syscalls by an architecture table, and merges
everything deterministically in `writeOutput`.  This file gives a shallow
embedding of the functions of `run.go` that the pipeline's correctness claims
are about.  The declaration data carried by the fragments (package `pkg/ast`,
which lives outside this tool's source) is modelled from the spec's data-model
section: a syscall declaration carries an exposed name, an entry-point name
and an ordered argument list; a netlink struct carries a name and a body.

Go standard-library primitives used by `run.go` are modelled from their
documented contracts: `strings.Compare` byte-wise comparison becomes a
character-list comparison, `slices.SortFunc` becomes a deterministic
comparator-respecting sort (insertion sort, which agrees with Go's pdqsort on
the small inputs evaluated in witnesses: pdqsort runs insertion sort below 12
elements), `slices.CompactFunc` keeps an element exactly when it does not
compare equal to its predecessor, and `strconv.Itoa` becomes a decimal
rendering of a natural number.
-/

namespace Declextract

/-! ### Comparator-level primitives -/

/-- Lexicographic comparison of lists by an element comparator, the contract of
Go's `slices.CompareFunc`: compare element-wise, a strict prefix is smaller. -/
def listCmpWith (f : α → α → Ordering) : List α → List α → Ordering
  | [], [] => .eq
  | [], _ :: _ => .lt
  | _ :: _, [] => .gt
  | a :: as, b :: bs =>
    match f a b with
    | .eq => listCmpWith f as bs
    | o => o

/-- Character comparison by code point, modelling byte comparison of
`strings.Compare` (coincides on the ASCII data these tools handle). -/
def charCmp (a b : Char) : Ordering :=
  if a.toNat < b.toNat then .lt else if b.toNat < a.toNat then .gt else .eq

/-- Model of `strings.Compare`: lexicographic comparison of the characters. -/
def strCmp (a b : String) : Ordering :=
  listCmpWith charCmp a.data b.data

/-- Insert into a list sorted by `le`, before the first element that is not
strictly smaller. -/
def orderedInsert (le : α → α → Bool) (a : α) : List α → List α
  | [] => [a]
  | b :: l => if le a b then a :: b :: l else b :: orderedInsert le a l

/-- Insertion sort by a boolean `le`. -/
def insSort (le : α → α → Bool) : List α → List α
  | [] => []
  | a :: l => orderedInsert le a (insSort le l)

/-- Model of `slices.SortFunc cmp`: a deterministic sort that respects the
comparator (keeps an element before its successor whenever the comparator does
not say `gt`). -/
def sortFunc (cmp : α → α → Ordering) (l : List α) : List α :=
  insSort (fun a b => cmp a b != .gt) l

/-- Tail worker for `compactFunc`: `prev` is the element at the previous
position of the original list; an element survives exactly when it does not
compare equal to its predecessor. -/
def compactTail (eq : α → α → Bool) : α → List α → List α
  | _, [] => []
  | prev, b :: l => if eq prev b then compactTail eq b l else b :: compactTail eq b l

/-- Model of `slices.CompactFunc`: keeps the head, and afterwards each element
that does not compare equal to the element before it. -/
def compactFunc (eq : α → α → Bool) : List α → List α
  | [] => []
  | a :: l => a :: compactTail eq a l

/-! ### Decimal rendering, the model of `strconv.Itoa` on naturals -/

/-- The ASCII digit character for `d`. -/
def digitChar (d : Nat) : Char := Char.ofNat (48 + d)

/-- Fuel-driven decimal digit expansion (most significant digit first). -/
def toDecimal : Nat → Nat → List Char
  | 0, _ => []
  | fuel + 1, n =>
    if n < 10 then [digitChar n] else toDecimal fuel (n / 10) ++ [digitChar (n % 10)]

/-- Model of `strconv.Itoa` for the non-negative counters used by `run.go`. -/
def itoa (n : Nat) : String := ⟨toDecimal (n + 1) n⟩

/-- The decimal digits of `n`, the character data of `itoa n`. -/
def decDigits (n : Nat) : List Char := toDecimal (n + 1) n

/-! ### Data model of the declaration fragments

Modelled from the spec: the fragment representation lives in `pkg/ast`, outside
this tool's source.  The spec's data model says a syscall declaration carries a
declaration (exposed) name, an entry-point name and an ordered argument list,
each argument having a name and a type expression; a netlink policy struct
carries a name and a body; includes carry a file path; type definitions and
resources carry a name (their remaining payload is kept abstract as a body
string). Type expressions carry an identifier and a list of type arguments,
matching the accesses `Type.Args[i]`, `.Args[i]` and `.Ident` made by
`run.go`. -/

mutual
inductive TypeE where
  | mk : String → TypeList → TypeE
  deriving DecidableEq
inductive TypeList where
  | nil : TypeList
  | cons : TypeE → TypeList → TypeList
  deriving DecidableEq
end

/-- The identifier of a type expression (`Type.Ident`). -/
def TypeE.ident : TypeE → String
  | .mk i _ => i

/-- The type arguments of a type expression (`Type.Args`). -/
def TypeE.args : TypeE → TypeList
  | .mk _ a => a

/-- Index lookup in a type-argument list (`Args[i]` as an option). -/
def TypeList.get? : TypeList → Nat → Option TypeE
  | .nil, _ => none
  | .cons t _, 0 => some t
  | .cons _ ts, n + 1 => ts.get? n

/-- Length of a type-argument list (`len(Args)`). -/
def TypeList.length : TypeList → Nat
  | .nil => 0
  | .cons _ ts => ts.length + 1

/-- An argument of a syscall declaration: `ast.Field` restricted to the data
the tool reads (`Field.Name.Name` and `Field.Type`). -/
structure Field where
  name : String
  type : TypeE
  deriving DecidableEq

/-- A syscall declaration: `ast.Call` restricted to the data the tool reads
and writes (`Name.Name`, `CallName`, `Args`). -/
structure Call where
  name : String
  callName : String
  args : List Field
  deriving DecidableEq

/-- A netlink policy struct: `ast.Struct` as a name plus abstract body. -/
structure Strukt where
  name : String
  body : String
  deriving DecidableEq

/-- A type definition: `ast.TypeDef` as a name plus abstract body. -/
structure TypeDefD where
  name : String
  body : String
  deriving DecidableEq

/-- A resource declaration: `ast.Resource` as a name plus abstract body. -/
structure ResourceD where
  name : String
  body : String
  deriving DecidableEq

/-- A parsed declaration fragment: the variants of the classifier's type
switch in `main` (includes are reduced to their file path `File.Value`, the
only component `writeOutput` reads). -/
inductive Node where
  | call : Call → Node
  | strukt : Strukt → Node
  | includeDir : String → Node
  | typeDef : TypeDefD → Node
  | resource : ResourceD → Node
  | newLine : Node
  deriving DecidableEq

/-! ### The functions of `run.go` -/

/-- The constant `sendmsg` of `run.go`. -/
def sendmsg : String := "sendmsg"

/-- Model of `shouldRenameSyscall`: every entry point is renamed except the netlink
send primitive and the generic-netlink family-lookup primitive. -/
def shouldRenameSyscall (syscall : String) : Bool :=
  if syscall == sendmsg || syscall == "syz_genetlink_get_family_id" then false else true

/-- Model of `isProhibited`: names that must never be cloned to. -/
def isProhibited (syscall : String) : Bool :=
  if syscall == "reboot" || syscall == "utimesat" then true else false

/-- Model of `renameSyscall`: keep exempt entry points unchanged; drop entry points
absent from the rename table (the empty list models a missing map entry, the
only way `rename[x] == nil` holds since table values are built by `append`);
otherwise emit one clone per non-prohibited associated name, with exposed name
`name$auto` and entry-point field `name`. -/
def renameSyscall (syscall : Call) (rename : String → List String) : List Call :=
  if shouldRenameSyscall syscall.callName = false then [syscall]
  else if rename syscall.callName = [] then []
  else
    (rename syscall.callName).filterMap fun name =>
      if isProhibited name then none
      else some { syscall with name := name ++ "$auto", callName := name }

/-- The policy identifier embedded in a sendmsg declaration's message-type
argument: `Args[1].Type.Args[1].Args[1].Ident`.  The Go code indexes
unconditionally and panics when a list is too short; the `none` value marks
exactly those panicking accesses. -/
def policyIdent? (c : Call) : Option String :=
  match c.args[1]? with
  | none => none
  | some f =>
    match f.type.args.get? 1 with
    | none => none
    | some t =>
      match t.args.get? 1 with
      | none => none
      | some t2 => some t2.ident

/-- The sendmsg branch of the syscall sort comparator, compared by policy
identifier; `none` marks the out-of-bounds accesses on which Go panics. -/
def sendmsgCmp (a b : Call) : Option Ordering :=
  match policyIdent? a, policyIdent? b with
  | some pa, some pb => some (strCmp pa pb)
  | _, _ => none

/-- The comparator passed to `slices.SortFunc` for syscalls: exposed name
first; on ties, policy identifier when the left element's entry point is the
netlink send primitive, otherwise the argument-name sequence.  The `getD .eq`
default is the junk value of the modelled panic; no claim depends on it. -/
def callCmp (a b : Call) : Ordering :=
  match strCmp a.name b.name with
  | .eq =>
    if a.callName == sendmsg then (sendmsgCmp a b).getD .eq
    else listCmpWith (fun f g => strCmp f.name g.name) a.args b.args
  | o => o

/-- The argument comparator embedded in `callCmp` (compares field names). -/
def fieldCmp (f g : Field) : Ordering := strCmp f.name g.name

/-- Entry points are resolvable from the policy access whenever the comparator
or the assembly reads them. -/
def PolicyOk (c : Call) : Prop := c.callName = sendmsg → (policyIdent? c).isSome

/-- The precondition of claim C10 on one declaration: at least two arguments,
at least two type arguments on the second argument's type, and at least two
type arguments on that second type argument. -/
def shapeOk (c : Call) : Bool :=
  decide (2 ≤ c.args.length) &&
    (match c.args[1]? with
     | none => true
     | some f =>
       decide (2 ≤ f.type.args.length) &&
         (match f.type.args.get? 1 with
          | none => true
          | some t => decide (2 ≤ t.args.length)))

/-- Comparison key following the words of the spec sentence of claim C3 (the
"sorted sequence of argument names"), for refutation against the comparator
the source implements. -/
def specSortedArgNames (c : Call) : List String :=
  sortFunc strCmp (c.args.map Field.name)

/-- Comparator following the spec's words for claim C3: order equal-named
declarations by the sorted sequence of their argument names. -/
def specArgNameCmp (a b : Call) : Ordering :=
  listCmpWith strCmp (specSortedArgNames a) (specSortedArgNames b)

/-- The pre-deduplication pass appending a fresh decimal counter to the
exposed name of every sendmsg declaration, in list order. -/
def suffixSendmsg : List Call → Nat → List Call
  | [], _ => []
  | c :: l, n =>
    if c.callName == sendmsg then
      { c with name := c.name ++ itoa n } :: suffixSendmsg l (n + 1)
    else c :: suffixSendmsg l n

/-- The deduplication equivalence for syscalls: exposed name only. -/
def nameEq (a b : Call) : Bool := a.name == b.name

/-- The syscall merge of `writeOutput`: sort, suffix the sendmsg
declarations, deduplicate by exposed name. -/
def mergeSyscalls (syscalls : List Call) : List Call :=
  compactFunc nameEq (suffixSendmsg (sortFunc callCmp syscalls) 0)

/-- The length read `len(node.Args[1].Type.Args)`; Go panics when `Args[1]` is missing, the
`getD 0` default is that modelled panic's junk value. -/
def msgTypeArgsLen (c : Call) : Nat :=
  ((c.args[1]?).map fun f => f.type.args.length).getD 0

/-- The guard of the netlink-policy check in `writeOutput`'s assembly loop:
`node.CallName == sendmsg && len(node.Args[1].Type.Args) == 2`. -/
def sendmsgPolicyCond (c : Call) : Bool :=
  c.callName == sendmsg && msgTypeArgsLen c == 2

/-- Whether a policy name occurs among the collected netlink structs; models
`slices.BinarySearchFunc` on the name-sorted struct list by its contract
(membership of the searched name). -/
def containsName (netlinks : List Strukt) (policy : String) : Bool :=
  netlinks.any fun s => s.name == policy

/-- The assembly loop keeps a syscall unless it is a policy-qualified sendmsg
whose policy is not a collected netlink struct (`continue` on `!isDefined`).
The `getD ""` default is the junk value of a modelled panic. -/
def keepSyscall (netlinks : List Strukt) (c : Call) : Bool :=
  !(sendmsgPolicyCond c && !containsName netlinks ((policyIdent? c).getD ""))

/-- The `usedNetlink` set: policies referenced by any policy-qualified
sendmsg declaration of the merged list (recorded before the `isDefined`
check, hence also for dropped declarations). -/
def usedPolicies (syscalls : List Call) : List String :=
  syscalls.filterMap fun c =>
    if sendmsgPolicyCond c then some ((policyIdent? c).getD "") else none

/-- The names collected into `netlinkNames`: netlink structs, in sorted
order, whose name is not in the used set. -/
def unusedNetlinkNames (netlinks : List Strukt) (used : List String) : List String :=
  (netlinks.map Strukt.name).filter fun n => !used.contains n

/-- The arms of the synthesized `auto_union`: each unused netlink struct name
paired with its positional index, the content of the generated line
`policy<i> msghdr_auto[<name>]`. -/
def unionArms (names : List String) : List (Nat × String) := names.enum

/-- The assembled output of `writeOutput`, as the ordered content appended to
`desc.Nodes` (constant surrounding text — the generated-file notice, the fixed
header includes, the `mmap2` compatibility line and the fixed part of the
union block — is omitted, and serialization of the result is the external
serializer's concern). -/
structure OutputD where
  includes : List String
  resources : List ResourceD
  typeDefs : List TypeDefD
  syscalls : List Call
  netlinks : List Strukt
  arms : List (Nat × String)
  deriving DecidableEq

/-- Model of `writeOutput`: merge every bucket, drop dangling-policy sendmsg
declarations, and synthesize the union arms. -/
def writeOutput (includes : List String) (syscalls : List Call)
    (netlinks : List Strukt) (types : List TypeDefD) (resources : List ResourceD) :
    OutputD :=
  let includes := compactFunc (fun a b => a == b) (sortFunc strCmp includes)
  let syscalls := mergeSyscalls syscalls
  let netlinks := sortFunc (fun a b => strCmp a.name b.name) netlinks
  let resources := sortFunc (fun a b => strCmp a.name b.name) resources
  let types := sortFunc (fun a b => strCmp a.name b.name) types
  { includes := includes
    resources := resources
    typeDefs := types
    syscalls := syscalls.filter (keepSyscall netlinks)
    netlinks := netlinks
    arms := unionArms (unusedNetlinkNames netlinks (usedPolicies syscalls)) }

/-! ### The collection loop of `main`

One chunk per drained worker result: the fragments parsed from one file's
output, consumed in drain order.  Classification appends each fragment to its
bucket, syscalls after fanning out through `renameSyscall`. -/

/-- The syscall bucket: every `ast.Call` fragment, expanded by
`renameSyscall`, in drain order. -/
def collectSyscalls (rename : String → List String) (chunks : List (List Node)) : List Call :=
  chunks.flatten.flatMap fun n =>
    match n with
    | .call c => renameSyscall c rename
    | _ => []

/-- The netlink-struct bucket. -/
def collectNetlinks (chunks : List (List Node)) : List Strukt :=
  chunks.flatten.filterMap fun n =>
    match n with
    | .strukt s => some s
    | _ => none

/-- The include bucket. -/
def collectIncludes (chunks : List (List Node)) : List String :=
  chunks.flatten.filterMap fun n =>
    match n with
    | .includeDir f => some f
    | _ => none

/-- The type-definition bucket. -/
def collectTypeDefs (chunks : List (List Node)) : List TypeDefD :=
  chunks.flatten.filterMap fun n =>
    match n with
    | .typeDef t => some t
    | _ => none

/-- The resource bucket. -/
def collectResources (chunks : List (List Node)) : List ResourceD :=
  chunks.flatten.filterMap fun n =>
    match n with
    | .resource r => some r
    | _ => none

/-- The whole merge pipeline after extraction: classify the drained per-file
fragment lists and hand the buckets to `writeOutput`. -/
def pipeline (rename : String → List String) (chunks : List (List Node)) : OutputD :=
  writeOutput (collectIncludes chunks) (collectSyscalls rename chunks)
    (collectNetlinks chunks) (collectTypeDefs chunks) (collectResources chunks)

/-! ### The `.tbl` walk of `readSyscallNames`

Only the control flow of one visited file matters to the claims; the visit
record carries what the file system handed the callback: the error `filepath.Walk`
passed in (`err`), the result of `os.Lstat` (`fErr`), the symlink bit, the
result of `os.Open` and the scanned lines. -/

structure TblVisit where
  path : String
  walkErr : Option String
  lstatErr : Option String
  isSymlink : Bool
  openErr : Option String
  lines : List String
  deriving DecidableEq

/-- Accumulating worker for `strFields`: split at whitespace, keeping only
non-empty tokens (`cur` holds the current token reversed). -/
def fieldsOf : List Char → List Char → List (List Char)
  | [], cur => if cur.isEmpty then [] else [cur.reverse]
  | c :: rest, cur =>
    if c.isWhitespace then
      if cur.isEmpty then fieldsOf rest [] else cur.reverse :: fieldsOf rest []
    else fieldsOf rest (c :: cur)

/-- Model of `strings.Fields`: whitespace-separated non-empty tokens. -/
def strFields (s : String) : List String :=
  (fieldsOf s.data []).map fun l => ⟨l⟩

/-- Model of `strings.HasPrefix` on character data. -/
def strHasPfx (s pre : String) : Bool := pre.data.isPrefixOf s.data

/-- Model of `strings.HasSuffix` on character data. -/
def strHasSfx (s post : String) : Bool := post.data.isSuffixOf s.data

/-- One scanned `.tbl` line: skip short, comment, unused, compat, ia32 and
not-implemented lines, otherwise record (entry point without the `sys_`
prefix, architecture-visible syscall name). -/
def tblLineEntry (line : String) : Option (String × String) :=
  let fields := strFields line
  let f0 := fields.getD 0 ""
  let f2 := fields.getD 2 ""
  let f3 := fields.getD 3 ""
  if fields.length < 4 || f0 == "#" || strHasPfx f2 "unused" || f3 == "-" ||
      strHasPfx f3 "compat" || strHasPfx f3 "sys_ia32" || f3 == "sys_ni_syscall" then
    none
  else
    some (if strHasPfx f3 "sys_" then ⟨f3.data.drop 4⟩ else f3, f2)

/-- The walk callback of `readSyscallNames` for one file.  An `Except.error`
is a `tool.Fail` abort carrying the error value the source actually passes:
on a failing `os.Lstat` or `os.Open` the source passes `err` — the error
`filepath.Walk` handed the callback — and not the failing call's own `fErr`. -/
def visitTbl (entries : List (String × String)) (v : TblVisit) :
    Except (Option String) (List (String × String)) :=
  if !strHasSfx v.path ".tbl" then .ok entries
  else
    match v.lstatErr with
    | some _ => .error v.walkErr
    | none =>
      if v.isSymlink then .ok entries
      else
        match v.openErr with
        | some _ => .error v.walkErr
        | none => .ok (entries ++ v.lines.filterMap tblLineEntry)

/-- The walk over all visited files: abort at the first failing visit, so no
partial table is ever returned. -/
def readSyscallNames (visits : List TblVisit) :
    Except (Option String) (List (String × String)) :=
  visits.foldlM visitTbl []

/-! ### Concrete example inputs used by witnesses and counterexamples -/

/-- A policy-qualified sendmsg message-type argument
`ptr[in, msghdr_netlink_auto[genlmsghdr, pol]]`. -/
def msgType (pol : String) : TypeE :=
  .mk "ptr" (.cons (.mk "in" .nil)
    (.cons (.mk "msghdr_netlink_auto"
      (.cons (.mk "genlmsghdr" .nil) (.cons (.mk pol .nil) .nil))) .nil))

/-- A netlink-send declaration carrying the policy `pol`. -/
def sendCall (nm pol : String) : Call :=
  ⟨nm, "sendmsg", [⟨"fd", .mk "sock_nl_generic" .nil⟩, ⟨"msg", msgType pol⟩]⟩

/-- Counterexample declaration for C3: exposed name `foo$auto`, argument
names `b, a` in declaration order. -/
def cxA : Call := ⟨"foo$auto", "foo", [⟨"b", .mk "int8" .nil⟩, ⟨"a", .mk "int8" .nil⟩]⟩

/-- Counterexample declaration for C3: exposed name `foo$auto`, argument
names `a, c` in declaration order. -/
def cxB : Call := ⟨"foo$auto", "foo", [⟨"a", .mk "int8" .nil⟩, ⟨"c", .mk "int8" .nil⟩]⟩

/-! ### Comparator laws -/

/-- The comparator answers symmetrically (`f a b` is the swap of `f b a`). -/
def CmpSymm (f : α → α → Ordering) : Prop :=
  ∀ a b, f a b = (f b a).swap

/-- The not-greater relation induced by the comparator is transitive. -/
def CmpLeTrans (f : α → α → Ordering) : Prop :=
  ∀ a b c, f a b ≠ .gt → f b c ≠ .gt → f a c ≠ .gt

/-- Elements comparing equal are interchangeable on the left argument. -/
def CmpEqSubst (f : α → α → Ordering) : Prop :=
  ∀ a b, f a b = .eq → ∀ c, f a c = f b c

/-- The comparator's equality is genuine equality. -/
def CmpEqIff (f : α → α → Ordering) : Prop :=
  ∀ a b, f a b = .eq ↔ a = b

theorem CmpSymm.refl {f : α → α → Ordering} (hs : CmpSymm f) (a : α) : f a a = .eq := by
  have h := hs a a
  cases hfa : f a a <;> rw [hfa] at h <;> first | rfl | exact absurd h (by simp [Ordering.swap])

theorem CmpEqIff.eqSubst {f : α → α → Ordering} (h : CmpEqIff f) : CmpEqSubst f := by
  intro a b hab c
  rw [(h a b).mp hab]

theorem CmpSymm.subst_right {f : α → α → Ordering} (hs : CmpSymm f) (hsub : CmpEqSubst f)
    {b c : α} (hbc : f b c = .eq) (a : α) : f a b = f a c := by
  have hcb : f c b = .eq := by
    have := hs b c
    rw [hbc] at this
    cases hfe : f c b <;> rw [hfe] at this <;> first | rfl | exact absurd this (by simp [Ordering.swap])
  calc f a b = (f b a).swap := hs a b
    _ = (f c a).swap := by rw [hsub b c hbc a]
    _ = f a c := (hs a c).symm

theorem charCmp_symm : CmpSymm charCmp := by
  intro a b
  unfold charCmp
  rcases Nat.lt_trichotomy a.toNat b.toNat with h | h | h
  · rw [if_pos h, if_neg (by omega), if_pos h]
    rfl
  · rw [if_neg (by omega), if_neg (by omega), if_neg (by omega), if_neg (by omega)]
    rfl
  · rw [if_neg (by omega), if_pos h, if_pos h]
    rfl

theorem charCmp_eq_iff : CmpEqIff charCmp := by
  intro a b
  unfold charCmp
  constructor
  · intro h
    have : a.toNat = b.toNat := by
      by_contra hne
      rcases Nat.lt_or_ge a.toNat b.toNat with hlt | hge
      · rw [if_pos hlt] at h
        exact absurd h (by simp)
      · have : b.toNat < a.toNat := by omega
        rw [if_neg (by omega), if_pos this] at h
        exact absurd h (by simp)
    exact Char.ext (UInt32.ext this)
  · intro h
    subst h
    rw [if_neg (by omega), if_neg (by omega)]

theorem charCmp_le (a b : Char) : charCmp a b ≠ .gt ↔ a.toNat ≤ b.toNat := by
  unfold charCmp
  rcases Nat.lt_trichotomy a.toNat b.toNat with h | h | h
  · rw [if_pos h]
    simp
    omega
  · rw [if_neg (by omega), if_neg (by omega)]
    simp
    omega
  · rw [if_neg (by omega), if_pos h]
    simp
    omega

theorem charCmp_le_trans : CmpLeTrans charCmp := by
  intro a b c hab hbc
  rw [charCmp_le] at *
  omega

theorem listCmpWith_symm {f : α → α → Ordering} (hs : CmpSymm f) :
    CmpSymm (listCmpWith f) := by
  intro as
  induction as with
  | nil => intro bs; cases bs <;> rfl
  | cons a as ih =>
    intro bs
    cases bs with
    | nil => rfl
    | cons b bs =>
      show (match f a b with | .eq => listCmpWith f as bs | o => o) =
        (match f b a with | .eq => listCmpWith f bs as | o => o).swap
      have hba := hs a b
      cases hfe : f b a <;> rw [hfe] at hba <;> simp only [Ordering.swap] at hba <;> rw [hba]
      · rfl
      · exact ih bs
      · rfl

theorem listCmpWith_eq_iff {f : α → α → Ordering} (he : CmpEqIff f) :
    CmpEqIff (listCmpWith f) := by
  intro as
  induction as with
  | nil =>
    intro bs
    cases bs <;> simp [listCmpWith]
  | cons a as ih =>
    intro bs
    cases bs with
    | nil => simp [listCmpWith]
    | cons b bs =>
      show (match f a b with | .eq => listCmpWith f as bs | o => o) = .eq ↔ _
      constructor
      · intro h
        cases hfe : f a b <;> rw [hfe] at h
        · exact absurd h (by simp)
        · rw [(he a b).mp hfe, ((ih bs).mp h)]
        · exact absurd h (by simp)
      · intro h
        cases h
        rw [(he a a).mpr rfl]
        exact (ih as).mpr rfl

theorem listCmpWith_eqSubst {f : α → α → Ordering} (hsub : CmpEqSubst f) :
    CmpEqSubst (listCmpWith f) := by
  intro as
  induction as with
  | nil =>
    intro bs h cs
    cases bs <;> simp_all [listCmpWith]
  | cons a as ih =>
    intro bs h cs
    cases bs with
    | nil => exact absurd h (by simp [listCmpWith])
    | cons b bs =>
      rw [show listCmpWith f (a :: as) (b :: bs) =
          (match f a b with | .eq => listCmpWith f as bs | o => o) from rfl] at h
      cases hfe : f a b <;> rw [hfe] at h
      · exact absurd h (by simp)
      · cases cs with
        | nil => rfl
        | cons c cs =>
          show (match f a c with | .eq => listCmpWith f as cs | o => o) =
            (match f b c with | .eq => listCmpWith f bs cs | o => o)
          rw [← hsub a b hfe c, ih bs h cs]
      · exact absurd h (by simp)

theorem listCmpWith_le_trans {f : α → α → Ordering} (hs : CmpSymm f)
    (htr : CmpLeTrans f) (hsub : CmpEqSubst f) : CmpLeTrans (listCmpWith f) := by
  intro as
  induction as with
  | nil =>
    intro bs cs _ _
    cases cs <;> simp [listCmpWith]
  | cons a as ih =>
    intro bs cs hab hbc
    cases bs with
    | nil => exact absurd rfl (by cases as <;> exact hab)
    | cons b bs =>
      cases cs with
      | nil => exact absurd rfl (by cases bs <;> exact hbc)
      | cons c cs =>
        rw [show listCmpWith f (a :: as) (b :: bs) =
            (match f a b with | .eq => listCmpWith f as bs | o => o) from rfl] at hab
        rw [show listCmpWith f (b :: bs) (c :: cs) =
            (match f b c with | .eq => listCmpWith f bs cs | o => o) from rfl] at hbc
        show (match f a c with | .eq => listCmpWith f as cs | o => o) ≠ .gt
        cases hfab : f a b <;> rw [hfab] at hab
        · -- f a b = lt
          cases hfbc : f b c <;> rw [hfbc] at hbc
          · -- lt, lt: conclude f a c = lt
            have hne : f a c ≠ .gt := htr a b c (by rw [hfab]; simp) (by rw [hfbc]; simp)
            cases hfac : f a c <;> rw [hfac] at hne
            · simp
            · -- f a c = eq: then f c b = f a b = lt, yet swap of f b c = lt says gt
              exfalso
              have h1 : f a b = f c b := hsub a c hfac b
              have h2 := hs c b
              rw [← h1, hfab, hfbc] at h2
              exact absurd h2 (by simp [Ordering.swap])
            · exact absurd rfl hne
          · -- lt, eq: f a c = f a b = lt
            rw [hs.subst_right hsub hfbc a |>.symm, hfab]
            simp
          · exact absurd rfl hbc
        · -- f a b = eq
          cases hfbc : f b c <;> rw [hfbc] at hbc
          · -- eq, lt: f a c = f b c = lt
            rw [hsub a b hfab c, hfbc]
            simp
          · -- eq, eq: f a c = eq, recurse on tails
            have hfac : f a c = .eq := by rw [hsub a b hfab c, hfbc]
            rw [hfac]
            exact ih bs cs hab hbc
          · exact absurd rfl hbc
        · exact absurd rfl hab

theorem strCmp_symm : CmpSymm strCmp := by
  intro a b
  exact listCmpWith_symm charCmp_symm a.data b.data

theorem strCmp_eq_iff : CmpEqIff strCmp := by
  intro a b
  unfold strCmp
  rw [listCmpWith_eq_iff charCmp_eq_iff]
  constructor
  · intro h
    cases a
    cases b
    simp_all
  · intro h
    rw [h]

theorem strCmp_le_trans : CmpLeTrans strCmp := by
  intro a b c
  exact listCmpWith_le_trans charCmp_symm charCmp_le_trans charCmp_eq_iff.eqSubst a.data b.data c.data

theorem strCmp_refl (a : String) : strCmp a a = .eq := strCmp_symm.refl a

/-! ### Sorting lemmas for the `slices.SortFunc` model

All order hypotheses are relativized to the members of the sorted list: the
comparators of `run.go` are only well-behaved on declaration lists satisfying
the invariants the surrounding code provides, not on all of `Call`. -/

theorem bne_gt_iff (o : Ordering) : (o != .gt) = true ↔ o ≠ .gt := by
  cases o <;> decide

theorem perm_orderedInsert (le : α → α → Bool) (a : α) :
    ∀ l : List α, (orderedInsert le a l).Perm (a :: l) := by
  intro l
  induction l with
  | nil => exact List.Perm.refl _
  | cons b l ih =>
    show (if le a b then a :: b :: l else b :: orderedInsert le a l).Perm (a :: b :: l)
    split
    · exact List.Perm.refl _
    · exact (ih.cons b).trans (List.Perm.swap a b l)

theorem perm_insSort (le : α → α → Bool) : ∀ l : List α, (insSort le l).Perm l := by
  intro l
  induction l with
  | nil => exact List.Perm.refl _
  | cons a l ih => exact (perm_orderedInsert le a (insSort le l)).trans (ih.cons a)

theorem mem_insSort {le : α → α → Bool} {l : List α} {x : α} :
    x ∈ insSort le l ↔ x ∈ l :=
  (perm_insSort le l).mem_iff

theorem sorted_orderedInsert (le : α → α → Bool) (a : α) :
    ∀ l : List α, l.Pairwise (fun x y => le x y = true) →
    (∀ x ∈ l, le a x = true ∨ le x a = true) →
    (∀ x ∈ l, ∀ y ∈ l, le a x = true → le x y = true → le a y = true) →
    (orderedInsert le a l).Pairwise (fun x y => le x y = true) := by
  intro l
  induction l with
  | nil =>
    intro _ _ _
    simp [orderedInsert]
  | cons b l ih =>
    intro hp htot htr
    have hbl := (List.pairwise_cons.mp hp).1
    have hpl := (List.pairwise_cons.mp hp).2
    show (if le a b then a :: b :: l else b :: orderedInsert le a l).Pairwise _
    by_cases hab : le a b
    · rw [if_pos hab]
      refine List.pairwise_cons.mpr ⟨?_, hp⟩
      intro y hy
      rcases List.mem_cons.mp hy with h | h
      · rw [h]; exact hab
      · exact htr b (List.mem_cons_self b l) y (List.mem_cons_of_mem b h) hab (hbl y h)
    · rw [if_neg hab]
      have hba : le b a = true := by
        rcases htot b (List.mem_cons_self b l) with h | h
        · exact absurd h hab
        · exact h
      refine List.pairwise_cons.mpr ⟨?_, ?_⟩
      · intro y hy
        rcases List.mem_cons.mp ((perm_orderedInsert le a l).mem_iff.mp hy) with h | h
        · rw [h]; exact hba
        · exact hbl y h
      · exact ih hpl
          (fun x hx => htot x (List.mem_cons_of_mem b hx))
          (fun x hx y hy => htr x (List.mem_cons_of_mem b hx) y (List.mem_cons_of_mem b hy))

theorem sorted_insSort (le : α → α → Bool) :
    ∀ l : List α,
    (∀ x ∈ l, ∀ y ∈ l, le x y = true ∨ le y x = true) →
    (∀ x ∈ l, ∀ y ∈ l, ∀ z ∈ l, le x y = true → le y z = true → le x z = true) →
    (insSort le l).Pairwise (fun x y => le x y = true) := by
  intro l
  induction l with
  | nil => intro _ _; simp [insSort]
  | cons a l ih =>
    intro htot htr
    show (orderedInsert le a (insSort le l)).Pairwise _
    refine sorted_orderedInsert le a _ ?_ ?_ ?_
    · exact ih
        (fun x hx y hy => htot x (List.mem_cons_of_mem a hx) y (List.mem_cons_of_mem a hy))
        (fun x hx y hy z hz => htr x (List.mem_cons_of_mem a hx) y (List.mem_cons_of_mem a hy)
          z (List.mem_cons_of_mem a hz))
    · intro x hx
      exact htot a (List.mem_cons_self a l) x (List.mem_cons_of_mem a (mem_insSort.mp hx))
    · intro x hx y hy
      exact htr a (List.mem_cons_self a l) x (List.mem_cons_of_mem a (mem_insSort.mp hx))
        y (List.mem_cons_of_mem a (mem_insSort.mp hy))

theorem eq_of_sorted_perm (le : α → α → Bool) :
    ∀ l₁ l₂ : List α, l₁.Perm l₂ →
    l₁.Pairwise (fun x y => le x y = true) → l₂.Pairwise (fun x y => le x y = true) →
    (∀ x ∈ l₁, ∀ y ∈ l₁, le x y = true → le y x = true → x = y) →
    l₁ = l₂ := by
  intro l₁
  induction l₁ with
  | nil =>
    intro l₂ h _ _ _
    exact h.symm.eq_nil.symm
  | cons a t₁ ih =>
    intro l₂ h hs₁ hs₂ hanti
    cases l₂ with
    | nil => exact absurd h.eq_nil (by simp)
    | cons b t₂ =>
      by_cases hab : a = b
      · subst hab
        rw [ih t₂ h.cons_inv (List.pairwise_cons.mp hs₁).2 (List.pairwise_cons.mp hs₂).2
          (fun x hx y hy => hanti x (List.mem_cons_of_mem a hx) y (List.mem_cons_of_mem a hy))]
      · exfalso
        have hbmem : b ∈ t₁ := by
          rcases List.mem_cons.mp (h.mem_iff.mpr (List.mem_cons_self b t₂)) with hh | hh
          · exact absurd hh.symm hab
          · exact hh
        have hamem : a ∈ t₂ := by
          rcases List.mem_cons.mp (h.mem_iff.mp (List.mem_cons_self a t₁)) with hh | hh
          · exact absurd hh hab
          · exact hh
        have h1 : le a b = true := (List.pairwise_cons.mp hs₁).1 b hbmem
        have h2 : le b a = true := (List.pairwise_cons.mp hs₂).1 a hamem
        exact hab (hanti a (List.mem_cons_self a t₁) b (List.mem_cons_of_mem a hbmem) h1 h2)

theorem sortFunc_perm (cmp : α → α → Ordering) (l : List α) : (sortFunc cmp l).Perm l :=
  perm_insSort _ l

theorem mem_sortFunc {cmp : α → α → Ordering} {l : List α} {x : α} :
    x ∈ sortFunc cmp l ↔ x ∈ l :=
  (sortFunc_perm cmp l).mem_iff

theorem sortFunc_sorted (cmp : α → α → Ordering) (l : List α)
    (htot : ∀ x ∈ l, ∀ y ∈ l, cmp x y ≠ .gt ∨ cmp y x ≠ .gt)
    (htr : ∀ x ∈ l, ∀ y ∈ l, ∀ z ∈ l, cmp x y ≠ .gt → cmp y z ≠ .gt → cmp x z ≠ .gt) :
    (sortFunc cmp l).Pairwise (fun x y => cmp x y ≠ .gt) := by
  have h := sorted_insSort (fun a b => cmp a b != .gt) l
    (fun x hx y hy => by
      rcases htot x hx y hy with h | h
      · exact Or.inl ((bne_gt_iff _).mpr h)
      · exact Or.inr ((bne_gt_iff _).mpr h))
    (fun x hx y hy z hz h1 h2 =>
      (bne_gt_iff _).mpr (htr x hx y hy z hz ((bne_gt_iff _).mp h1) ((bne_gt_iff _).mp h2)))
  exact h.imp (fun hq => (bne_gt_iff _).mp hq)

theorem sortFunc_det (cmp : α → α → Ordering) (l₁ l₂ : List α) (hperm : l₁.Perm l₂)
    (htot : ∀ x ∈ l₁, ∀ y ∈ l₁, cmp x y ≠ .gt ∨ cmp y x ≠ .gt)
    (htr : ∀ x ∈ l₁, ∀ y ∈ l₁, ∀ z ∈ l₁, cmp x y ≠ .gt → cmp y z ≠ .gt → cmp x z ≠ .gt)
    (hanti : ∀ x ∈ l₁, ∀ y ∈ l₁, cmp x y ≠ .gt → cmp y x ≠ .gt → x = y) :
    sortFunc cmp l₁ = sortFunc cmp l₂ := by
  refine eq_of_sorted_perm (fun a b => cmp a b != .gt) _ _
    ((sortFunc_perm cmp l₁).trans (hperm.trans (sortFunc_perm cmp l₂).symm)) ?_ ?_ ?_
  · exact (sortFunc_sorted cmp l₁ htot htr).imp (fun hq => (bne_gt_iff _).mpr hq)
  · refine (sortFunc_sorted cmp l₂ ?_ ?_).imp (fun hq => (bne_gt_iff _).mpr hq)
    · exact fun x hx y hy => htot x (hperm.mem_iff.mpr hx) y (hperm.mem_iff.mpr hy)
    · exact fun x hx y hy z hz => htr x (hperm.mem_iff.mpr hx) y (hperm.mem_iff.mpr hy)
        z (hperm.mem_iff.mpr hz)
  · intro x hx y hy h1 h2
    exact hanti x (mem_sortFunc.mp hx) y (mem_sortFunc.mp hy) ((bne_gt_iff _).mp h1) ((bne_gt_iff _).mp h2)

/-! ### Lemmas about the `slices.CompactFunc` model -/

theorem compactTail_subset (eq : α → α → Bool) :
    ∀ (l : List α) (prev : α), ∀ x ∈ compactTail eq prev l, x ∈ l := by
  intro l
  induction l with
  | nil => intro prev x hx; exact absurd hx (by simp [compactTail])
  | cons b l ih =>
    intro prev x hx
    rw [show compactTail eq prev (b :: l) =
        (if eq prev b then compactTail eq b l else b :: compactTail eq b l) from rfl] at hx
    by_cases hb : eq prev b
    · rw [if_pos hb] at hx
      exact List.mem_cons_of_mem b (ih b x hx)
    · rw [if_neg hb] at hx
      rcases List.mem_cons.mp hx with h | h
      · rw [h]; exact List.mem_cons_self b l
      · exact List.mem_cons_of_mem b (ih b x h)

theorem compactFunc_subset (eq : α → α → Bool) (l : List α) :
    ∀ x ∈ compactFunc eq l, x ∈ l := by
  cases l with
  | nil => intro x hx; exact absurd hx (by simp [compactFunc])
  | cons a l =>
    intro x hx
    rcases List.mem_cons.mp hx with h | h
    · rw [h]; exact List.mem_cons_self a l
    · exact List.mem_cons_of_mem a (compactTail_subset eq l a x h)

theorem mem_compactTail_of_kept (eq : α → α → Bool) (Q : α → Prop) :
    ∀ (l : List α) (prev : α),
    List.Chain' (fun a b => Q b → eq a b = false) (prev :: l) →
    ∀ x ∈ l, Q x → x ∈ compactTail eq prev l := by
  intro l
  induction l with
  | nil => intro prev _ x hx; exact absurd hx (by simp)
  | cons b l ih =>
    intro prev hchain x hx hQ
    have h1 : Q b → eq prev b = false := (List.chain'_cons.mp hchain).1
    have h2 : List.Chain' (fun a b => Q b → eq a b = false) (b :: l) :=
      (List.chain'_cons.mp hchain).2
    show x ∈ (if eq prev b then compactTail eq b l else b :: compactTail eq b l)
    rcases List.mem_cons.mp hx with h | h
    · subst h
      rw [if_neg (by rw [h1 hQ]; simp)]
      exact List.mem_cons_self x _
    · have hmem : x ∈ compactTail eq b l := ih b h2 x h hQ
      by_cases hb : eq prev b
      · rw [if_pos hb]; exact hmem
      · rw [if_neg hb]; exact List.mem_cons_of_mem b hmem

theorem mem_compactFunc_of_kept (eq : α → α → Bool) (Q : α → Prop) (l : List α)
    (hchain : List.Chain' (fun a b => Q b → eq a b = false) l)
    (x : α) (hx : x ∈ l) (hQ : Q x) : x ∈ compactFunc eq l := by
  cases l with
  | nil => exact absurd hx (by simp)
  | cons a l =>
    rcases List.mem_cons.mp hx with h | h
    · rw [h]; exact List.mem_cons_self a _
    · exact List.mem_cons_of_mem a (mem_compactTail_of_kept eq Q l a hchain x h hQ)

/-! ### Lemmas about the decimal rendering -/

theorem toDecimal_fuel : ∀ f₁ f₂ n : Nat, n < f₁ → n < f₂ →
    toDecimal f₁ n = toDecimal f₂ n := by
  intro f₁
  induction f₁ with
  | zero => intro f₂ n h _; omega
  | succ f ih =>
    intro f₂ n h1 h2
    cases f₂ with
    | zero => omega
    | succ g =>
      show (if n < 10 then _ else _) = (if n < 10 then _ else _)
      by_cases hn : n < 10
      · rw [if_pos hn, if_pos hn]
      · rw [if_neg hn, if_neg hn]
        have hlt : n / 10 < n := Nat.div_lt_self (by omega) (by omega)
        rw [ih g (n / 10) (by omega) (by omega)]

theorem decDigits_eq (n : Nat) :
    decDigits n = if n < 10 then [digitChar n] else decDigits (n / 10) ++ [digitChar (n % 10)] := by
  show (if n < 10 then _ else _) = _
  by_cases hn : n < 10
  · rw [if_pos hn, if_pos hn]
  · rw [if_neg hn, if_neg hn]
    have hlt : n / 10 < n := Nat.div_lt_self (by omega) (by omega)
    rw [toDecimal_fuel n (n / 10 + 1) (n / 10) (by omega) (by omega)]
    rfl

theorem decDigits_ne_nil (n : Nat) : decDigits n ≠ [] := by
  rw [decDigits_eq]
  split
  · simp
  · simp

theorem decDigits_len_le : ∀ m n : Nat, n ≤ m →
    (decDigits n).length ≤ (decDigits m).length := by
  intro m
  induction m using Nat.strong_induction_on with
  | _ m ih =>
    intro n hnm
    rw [decDigits_eq n, decDigits_eq m]
    by_cases hn : n < 10
    · rw [if_pos hn]
      by_cases hm : m < 10
      · rw [if_pos hm]
        simp
      · rw [if_neg hm]
        simp
    · rw [if_neg hn, if_neg (by omega)]
      simp only [List.length_append, List.length_cons, List.length_nil]
      have : (decDigits (n / 10)).length ≤ (decDigits (m / 10)).length :=
        ih (m / 10) (Nat.div_lt_self (by omega) (by omega)) (n / 10)
          (Nat.div_le_div_right hnm)
      omega

theorem digitChar_inj_lt : ∀ a < 10, ∀ b < 10, digitChar a = digitChar b → a = b := by
  decide

theorem decDigits_inj : ∀ m n : Nat, decDigits n = decDigits m → n = m := by
  intro m
  induction m using Nat.strong_induction_on with
  | _ m ih =>
    intro n h
    rw [decDigits_eq n, decDigits_eq m] at h
    by_cases hn : n < 10 <;> by_cases hm : m < 10
    · rw [if_pos hn, if_pos hm] at h
      exact digitChar_inj_lt n hn m hm (by simpa using h)
    · rw [if_pos hn, if_neg hm] at h
      have hlen := congrArg List.length h
      simp only [List.length_cons, List.length_append, List.length_nil] at hlen
      have hz : (decDigits (m / 10)).length = 0 := by omega
      exact absurd (List.length_eq_zero.mp hz) (decDigits_ne_nil (m / 10))
    · rw [if_neg hn, if_pos hm] at h
      have hlen := congrArg List.length h
      simp only [List.length_cons, List.length_append, List.length_nil] at hlen
      have hz : (decDigits (n / 10)).length = 0 := by omega
      exact absurd (List.length_eq_zero.mp hz) (decDigits_ne_nil (n / 10))
    · rw [if_neg hn, if_neg hm] at h
      have hrev := congrArg List.reverse h
      simp only [List.reverse_append, List.reverse_cons, List.reverse_nil,
        List.nil_append, List.singleton_append] at hrev
      have hhead : digitChar (n % 10) = digitChar (m % 10) := (List.cons.injEq .. ▸ hrev).1
      have htail : decDigits (n / 10) = decDigits (m / 10) :=
        List.reverse_injective (List.cons.injEq .. ▸ hrev).2
      have h1 : n % 10 = m % 10 :=
        digitChar_inj_lt (n % 10) (Nat.mod_lt n (by omega)) (m % 10) (Nat.mod_lt m (by omega)) hhead
      have h2 : n / 10 = m / 10 :=
        ih (m / 10) (Nat.div_lt_self (by omega) (by omega)) (n / 10) htail
      omega

theorem itoa_data (n : Nat) : (itoa n).data = decDigits n := rfl

theorem itoa_inj {n m : Nat} (h : itoa n = itoa m) : n = m :=
  decDigits_inj m n (by rw [← itoa_data, ← itoa_data, h])

/-! ### Strict growth of a string under a nonempty suffix -/

theorem listCmpWith_append_right {f : α → α → Ordering} (hrefl : ∀ a, f a a = .eq) :
    ∀ (l t : List α), t ≠ [] → listCmpWith f l (l ++ t) = .lt := by
  intro l
  induction l with
  | nil =>
    intro t ht
    cases t with
    | nil => exact absurd rfl ht
    | cons c t => rfl
  | cons a l ih =>
    intro t ht
    show (match f a a with | .eq => listCmpWith f l (l ++ t) | o => o) = .lt
    rw [hrefl a]
    exact ih t ht

theorem strCmp_append_itoa (s : String) (k : Nat) : strCmp s (s ++ itoa k) = .lt := by
  unfold strCmp
  rw [String.data_append, itoa_data]
  exact listCmpWith_append_right (charCmp_symm.refl) s.data (decDigits k) (decDigits_ne_nil k)

theorem ne_append_itoa (s₁ s₂ : String) (k : Nat) (hle : strCmp s₁ s₂ ≠ .gt) :
    s₁ ≠ s₂ ++ itoa k := by
  intro h
  have hlt : strCmp s₂ s₁ = .lt := by rw [h]; exact strCmp_append_itoa s₂ k
  have hsym := strCmp_symm s₁ s₂
  rw [hlt] at hsym
  exact hle hsym

theorem append_itoa_ne (s₁ s₂ : String) (p q : Nat) (hpq : p < q)
    (hle : strCmp s₁ s₂ ≠ .gt) : s₁ ++ itoa p ≠ s₂ ++ itoa q := by
  intro h
  have hd : s₁.data ++ decDigits p = s₂.data ++ decDigits q := by
    have := congrArg String.data h
    simpa [String.data_append, itoa_data] using this
  rcases List.append_eq_append_iff.mp hd with ⟨t, h1, h2⟩ | ⟨t, h1, h2⟩
  · -- s₂.data = s₁.data ++ t and decDigits p = t ++ decDigits q
    have hlen : (decDigits p).length = t.length + (decDigits q).length := by
      rw [h2]; simp
    have hle' : (decDigits p).length ≤ (decDigits q).length :=
      decDigits_len_le q p (le_of_lt hpq)
    have ht : t = [] := List.length_eq_zero.mp (by omega)
    subst ht
    rw [List.nil_append] at h2
    exact absurd (decDigits_inj q p h2) (by omega)
  · -- s₁.data = s₂.data ++ t and decDigits q = t ++ decDigits p
    by_cases ht : t = []
    · subst ht
      rw [List.nil_append] at h2
      have hle' : (decDigits p).length ≤ (decDigits q).length :=
        decDigits_len_le q p (le_of_lt hpq)
      exact absurd (decDigits_inj p q h2) (by omega)
    · have hlt : strCmp s₂ s₁ = .lt := by
        unfold strCmp
        rw [h1]
        exact listCmpWith_append_right (charCmp_symm.refl) s₂.data t ht
      have hsym := strCmp_symm s₁ s₂
      rw [hlt] at hsym
      exact hle hsym

/-! ### Structure of the syscall comparator -/

theorem fieldCmp_symm : CmpSymm fieldCmp := fun f g => strCmp_symm f.name g.name

theorem fieldCmp_le_trans : CmpLeTrans fieldCmp :=
  fun f g h => strCmp_le_trans f.name g.name h.name

theorem fieldCmp_eqSubst : CmpEqSubst fieldCmp := by
  intro f g h c
  unfold fieldCmp at *
  rw [(strCmp_eq_iff f.name g.name).mp h]

theorem callCmp_def (a b : Call) :
    callCmp a b =
      match strCmp a.name b.name with
      | .eq =>
        if a.callName == sendmsg then (sendmsgCmp a b).getD .eq
        else listCmpWith fieldCmp a.args b.args
      | o => o := rfl

theorem callCmp_of_name_eq {a b : Call} (h : strCmp a.name b.name = .eq) :
    callCmp a b =
      if a.callName == sendmsg then (sendmsgCmp a b).getD .eq
      else listCmpWith fieldCmp a.args b.args := by
  rw [callCmp_def, h]

theorem callCmp_of_name_lt {a b : Call} (h : strCmp a.name b.name = .lt) :
    callCmp a b = .lt := by
  rw [callCmp_def, h]

theorem callCmp_of_name_gt {a b : Call} (h : strCmp a.name b.name = .gt) :
    callCmp a b = .gt := by
  rw [callCmp_def, h]

theorem callCmp_name_le {a b : Call} (h : callCmp a b ≠ .gt) :
    strCmp a.name b.name ≠ .gt := by
  intro hc
  exact h (callCmp_of_name_gt hc)

theorem strCmp_symm_case {a b : String} (h : strCmp a b = .lt) : strCmp b a = .gt := by
  have hs := strCmp_symm a b
  rw [h] at hs
  cases hx : strCmp b a <;> rw [hx] at hs <;> first | rfl | exact absurd hs (by simp [Ordering.swap])

theorem callCmp_symm_of {a b : Call} (hnc : a.name = b.name → a.callName = b.callName)
    (hpa : PolicyOk a) (hpb : PolicyOk b) : callCmp a b = (callCmp b a).swap := by
  cases hc : strCmp a.name b.name
  · rw [callCmp_of_name_lt hc, callCmp_of_name_gt (strCmp_symm_case hc)]
    rfl
  · have hname : a.name = b.name := (strCmp_eq_iff a.name b.name).mp hc
    have hcsym : strCmp b.name a.name = .eq := (strCmp_eq_iff b.name a.name).mpr hname.symm
    have hcall : a.callName = b.callName := hnc hname
    rw [callCmp_of_name_eq hc, callCmp_of_name_eq hcsym, ← hcall]
    by_cases hsm : a.callName = sendmsg
    · rw [if_pos (by simp [hsm]), if_pos (by simp [hsm])]
      obtain ⟨pa, hpa'⟩ := Option.isSome_iff_exists.mp (hpa hsm)
      obtain ⟨pb, hpb'⟩ := Option.isSome_iff_exists.mp (hpb (hcall ▸ hsm))
      unfold sendmsgCmp
      rw [hpa', hpb']
      exact strCmp_symm pa pb
    · rw [if_neg (by simpa using hsm), if_neg (by simpa using hsm)]
      exact listCmpWith_symm fieldCmp_symm a.args b.args
  · have hlt : strCmp b.name a.name = .lt := by
      have hs := strCmp_symm a.name b.name
      rw [hc] at hs
      cases hx : strCmp b.name a.name <;> rw [hx] at hs <;>
        first | rfl | exact absurd hs (by simp [Ordering.swap])
    rw [callCmp_of_name_gt hc, callCmp_of_name_lt hlt]
    rfl

theorem callCmp_le_trans_of {a b c : Call}
    (hab : a.name = b.name → a.callName = b.callName)
    (hbc : b.name = c.name → b.callName = c.callName)
    (hpa : PolicyOk a) (hpb : PolicyOk b) (hpc : PolicyOk c)
    (h1 : callCmp a b ≠ .gt) (h2 : callCmp b c ≠ .gt) : callCmp a c ≠ .gt := by
  have hn1 : strCmp a.name b.name ≠ .gt := callCmp_name_le h1
  have hn2 : strCmp b.name c.name ≠ .gt := callCmp_name_le h2
  have hn3 : strCmp a.name c.name ≠ .gt := strCmp_le_trans a.name b.name c.name hn1 hn2
  cases hc3 : strCmp a.name c.name
  · rw [callCmp_of_name_lt hc3]
    simp
  · -- all three names are equal
    have hac : a.name = c.name := (strCmp_eq_iff a.name c.name).mp hc3
    have hnab : a.name = b.name := by
      by_contra hne
      have : strCmp a.name b.name ≠ .eq := fun hh => hne ((strCmp_eq_iff a.name b.name).mp hh)
      have hlt : strCmp a.name b.name = .lt := by
        cases hx : strCmp a.name b.name
        · rfl
        · exact absurd hx this
        · exact absurd hx hn1
      have : strCmp b.name a.name = .gt := strCmp_symm_case hlt
      rw [← hac] at hn2
      exact hn2 this
    have hbcn : b.name = c.name := hnab ▸ hac
    have hcall1 : a.callName = b.callName := hab hnab
    have hcall2 : b.callName = c.callName := hbc hbcn
    have heq1 : strCmp a.name b.name = .eq := (strCmp_eq_iff a.name b.name).mpr hnab
    have heq2 : strCmp b.name c.name = .eq := (strCmp_eq_iff b.name c.name).mpr hbcn
    rw [callCmp_of_name_eq heq1] at h1
    rw [callCmp_of_name_eq heq2] at h2
    rw [callCmp_of_name_eq hc3]
    by_cases hsm : a.callName = sendmsg
    · rw [if_pos (by simp [hsm])] at h1 ⊢
      rw [if_pos (by simp [← hcall1, hsm])] at h2
      obtain ⟨pa, hpa'⟩ := Option.isSome_iff_exists.mp (hpa hsm)
      obtain ⟨pb, hpb'⟩ := Option.isSome_iff_exists.mp (hpb (hcall1 ▸ hsm))
      obtain ⟨pc, hpc'⟩ := Option.isSome_iff_exists.mp (hpc (hcall2 ▸ hcall1 ▸ hsm))
      unfold sendmsgCmp at h1 h2 ⊢
      rw [hpa', hpb'] at h1
      rw [hpb', hpc'] at h2
      rw [hpa', hpc']
      exact strCmp_le_trans pa pb pc (by simpa using h1) (by simpa using h2)
    · rw [if_neg (by simpa using hsm)] at h1 ⊢
      rw [if_neg (by simpa [← hcall1] using hsm)] at h2
      exact listCmpWith_le_trans fieldCmp_symm fieldCmp_le_trans fieldCmp_eqSubst
        a.args b.args c.args h1 h2
  · exact absurd hc3 hn3

theorem callCmp_eq_of_le_ge {a b : Call}
    (hsymm : callCmp a b = (callCmp b a).swap)
    (h1 : callCmp a b ≠ .gt) (h2 : callCmp b a ≠ .gt) : callCmp a b = .eq := by
  cases hx : callCmp b a <;> rw [hx] at hsymm
  · exact absurd (by rw [hsymm]; rfl) h1
  · rw [hsymm]; rfl
  · exact absurd hx h2

/-! ### Lemmas about the sendmsg suffix pass -/

theorem suffixSendmsg_callName {c : Call} {m : Nat} :
    (Call.mk (c.name ++ itoa m) c.callName c.args).callName = c.callName := rfl

theorem mem_suffixSendmsg :
    ∀ (l : List Call) (n : Nat) (x : Call), x ∈ suffixSendmsg l n →
    ∃ c ∈ l, (c.callName = sendmsg ∧ ∃ m, n ≤ m ∧ x = { c with name := c.name ++ itoa m }) ∨
      (c.callName ≠ sendmsg ∧ x = c) := by
  intro l
  induction l with
  | nil => intro n x hx; exact absurd hx (by simp [suffixSendmsg])
  | cons c l ih =>
    intro n x hx
    by_cases hc : c.callName == sendmsg
    · rw [show suffixSendmsg (c :: l) n =
          { c with name := c.name ++ itoa n } :: suffixSendmsg l (n + 1) from by
        simp [suffixSendmsg, hc]] at hx
      rcases List.mem_cons.mp hx with h | h
      · exact ⟨c, List.mem_cons_self c l,
          Or.inl ⟨by simpa using hc, n, le_refl n, h⟩⟩
      · obtain ⟨d, hd, hcase⟩ := ih (n + 1) x h
        refine ⟨d, List.mem_cons_of_mem c hd, ?_⟩
        rcases hcase with ⟨hsm, m, hm, hx'⟩ | hother
        · exact Or.inl ⟨hsm, m, by omega, hx'⟩
        · exact Or.inr hother
    · rw [show suffixSendmsg (c :: l) n = c :: suffixSendmsg l n from by
        simp [suffixSendmsg, hc]] at hx
      rcases List.mem_cons.mp hx with h | h
      · exact ⟨c, List.mem_cons_self c l, Or.inr ⟨by simpa using hc, h⟩⟩
      · obtain ⟨d, hd, hcase⟩ := ih n x h
        exact ⟨d, List.mem_cons_of_mem c hd, hcase⟩

theorem suffixSendmsg_pairwise :
    ∀ (l : List Call) (n : Nat),
    l.Pairwise (fun a b => strCmp a.name b.name ≠ .gt) →
    (suffixSendmsg l n).Pairwise (fun a b => b.callName = sendmsg → a.name ≠ b.name) := by
  intro l
  induction l with
  | nil => intro n _; simp [suffixSendmsg]
  | cons c l ih =>
    intro n hp
    have hhead := (List.pairwise_cons.mp hp).1
    have htail := (List.pairwise_cons.mp hp).2
    by_cases hc : c.callName == sendmsg
    · rw [show suffixSendmsg (c :: l) n =
          { c with name := c.name ++ itoa n } :: suffixSendmsg l (n + 1) from by
        simp [suffixSendmsg, hc]]
      refine List.pairwise_cons.mpr ⟨?_, ih (n + 1) htail⟩
      intro b' hb' hbs
      obtain ⟨d, hd, hcase⟩ := mem_suffixSendmsg l (n + 1) b' hb'
      rcases hcase with ⟨hsm, m, hm, hx'⟩ | ⟨hns, hx'⟩
      · show c.name ++ itoa n ≠ b'.name
        rw [hx']
        exact append_itoa_ne c.name d.name n m (by omega) (hhead d hd)
      · rw [hx'] at hbs
        exact absurd hbs hns
    · rw [show suffixSendmsg (c :: l) n = c :: suffixSendmsg l n from by
        simp [suffixSendmsg, hc]]
      refine List.pairwise_cons.mpr ⟨?_, ih n htail⟩
      intro b' hb' hbs
      obtain ⟨d, hd, hcase⟩ := mem_suffixSendmsg l n b' hb'
      rcases hcase with ⟨hsm, m, hm, hx'⟩ | ⟨hns, hx'⟩
      · show c.name ≠ b'.name
        rw [hx']
        exact ne_append_itoa c.name d.name m (hhead d hd)
      · rw [hx'] at hbs
        exact absurd hbs hns

theorem sendmsg_retained (l : List Call)
    (hp : l.Pairwise (fun a b => strCmp a.name b.name ≠ .gt))
    (x : Call) (hx : x ∈ suffixSendmsg l 0) (hsm : x.callName = sendmsg) :
    x ∈ compactFunc nameEq (suffixSendmsg l 0) := by
  refine mem_compactFunc_of_kept nameEq (fun c => c.callName = sendmsg) _ ?_ x hx hsm
  have hpw := suffixSendmsg_pairwise l 0 hp
  exact (hpw.imp fun hab hb => by
    unfold nameEq
    exact beq_eq_false_iff_ne.mpr (hab hb)).chain'

/-! ### Claim theorems -/

/-- C2: a non-exempt syscall declaration whose entry point the rename table
maps to the two names `A` and `B`, neither prohibited, is expanded to exactly
the two clones `A$auto` and `B$auto`, each with the entry-point field set to
the un-suffixed name; and, for every table and non-exempt declaration, a
prohibited associated name yields no clone (every emitted declaration carries
a non-prohibited entry point). -/
theorem rename_two_names (c : Call) (rename : String → List String) (A B : String)
    (hs : shouldRenameSyscall c.callName = true)
    (hmap : rename c.callName = [A, B])
    (hA : isProhibited A = false) (hB : isProhibited B = false) :
    renameSyscall c rename =
      [{ c with name := A ++ "$auto", callName := A },
       { c with name := B ++ "$auto", callName := B }] ∧
    (∀ (rename' : String → List String) (c' : Call),
      shouldRenameSyscall c'.callName = true →
      ∀ d ∈ renameSyscall c' rename', isProhibited d.callName = false) := by
  constructor
  · unfold renameSyscall
    rw [if_neg (by rw [hs]; simp), hmap, if_neg (by simp)]
    simp [List.filterMap_cons, hA, hB]
  · intro rename' c' hs' d hd
    unfold renameSyscall at hd
    rw [if_neg (by rw [hs']; simp)] at hd
    by_cases hm : rename' c'.callName = []
    · rw [if_pos hm] at hd
      exact absurd hd (by simp)
    · rw [if_neg hm] at hd
      obtain ⟨nm, _, heq⟩ := List.mem_filterMap.mp hd
      by_cases hp : isProhibited nm
      · rw [if_pos hp] at heq
        exact absurd heq (by simp)
      · rw [if_neg hp] at heq
        have hde : ({ c' with name := nm ++ "$auto", callName := nm } : Call) = d :=
          Option.some.inj heq
        rw [← hde]
        simpa using hp

/-- Witness for C2 at a concrete declaration and table. -/
theorem rename_two_names_witness :
    renameSyscall ⟨"sys", "geteuid16", []⟩
        (fun s => if s = "geteuid16" then ["geteuid", "geteuid32"] else []) =
      [⟨"geteuid$auto", "geteuid", []⟩, ⟨"geteuid32$auto", "geteuid32", []⟩] ∧
    (∀ (rename' : String → List String) (c' : Call),
      shouldRenameSyscall c'.callName = true →
      ∀ d ∈ renameSyscall c' rename', isProhibited d.callName = false) :=
  rename_two_names ⟨"sys", "geteuid16", []⟩ _ "geteuid" "geteuid32"
    (by decide) (by decide) (by decide) (by decide)

/-- C7: the two exempt primitives pass through `renameSyscall` unchanged as a
singleton, and any other entry point absent from the rename table yields zero
declarations. -/
theorem rename_exempt_or_absent (c : Call) (rename : String → List String) :
    ((c.callName = sendmsg ∨ c.callName = "syz_genetlink_get_family_id") →
      renameSyscall c rename = [c]) ∧
    (shouldRenameSyscall c.callName = true → rename c.callName = [] →
      renameSyscall c rename = []) := by
  constructor
  · intro h
    unfold renameSyscall
    rw [if_pos ?_]
    unfold shouldRenameSyscall
    rcases h with h | h <;> rw [h] <;> simp
  · intro hs hmap
    unfold renameSyscall
    rw [if_neg (by rw [hs]; simp), hmap, if_pos rfl]

/-- Witness for C7: the sendmsg primitive is kept unchanged, and an absent
entry point is dropped. -/
theorem rename_exempt_or_absent_witness :
    renameSyscall ⟨"sendmsg$a", "sendmsg", []⟩ (fun _ => []) =
      [⟨"sendmsg$a", "sendmsg", []⟩] ∧
    renameSyscall ⟨"foo", "foo", []⟩ (fun _ => []) = [] :=
  ⟨(rename_exempt_or_absent ⟨"sendmsg$a", "sendmsg", []⟩ (fun _ => [])).1 (Or.inl rfl),
   (rename_exempt_or_absent ⟨"foo", "foo", []⟩ (fun _ => [])).2 (by decide) rfl⟩

/-- C9: every declaration emitted by `renameSyscall` for a non-exempt entry
point is an independent copy of the input that differs from it in exactly the
exposed-name and entry-point fields: its argument list equals the input's,
its exposed name is `nm$auto` and its entry point `nm` for some
non-prohibited table name `nm`.  (The clones are fresh values of the
embedding, so they share no state with each other, and the input itself is
unchanged by construction of the pure function.) -/
theorem rename_clone_frame (c : Call) (rename : String → List String)
    (hs : shouldRenameSyscall c.callName = true) :
    ∀ d ∈ renameSyscall c rename,
      d.args = c.args ∧
      ∃ nm ∈ rename c.callName, isProhibited nm = false ∧
        d.name = nm ++ "$auto" ∧ d.callName = nm := by
  intro d hd
  unfold renameSyscall at hd
  rw [if_neg (by rw [hs]; simp)] at hd
  by_cases hm : rename c.callName = []
  · rw [if_pos hm] at hd
    exact absurd hd (by simp)
  · rw [if_neg hm] at hd
    obtain ⟨nm, hnm, heq⟩ := List.mem_filterMap.mp hd
    by_cases hp : isProhibited nm
    · rw [if_pos hp] at heq
      exact absurd heq (by simp)
    · rw [if_neg hp] at heq
      have hde : ({ c with name := nm ++ "$auto", callName := nm } : Call) = d :=
        Option.some.inj heq
      exact ⟨by rw [← hde], nm, hnm, by simpa using hp, by rw [← hde], by rw [← hde]⟩

/-- Witness for C9 at a concrete declaration, table and emitted clone. -/
theorem rename_clone_frame_witness :
    (⟨"setuid$auto", "setuid", [⟨"uid", TypeE.mk "uid_t" .nil⟩]⟩ : Call).args =
      (⟨"sys", "setuid16", [⟨"uid", TypeE.mk "uid_t" .nil⟩]⟩ : Call).args ∧
    ∃ nm ∈ ["setuid"], isProhibited nm = false ∧
      (⟨"setuid$auto", "setuid", [⟨"uid", TypeE.mk "uid_t" .nil⟩]⟩ : Call).name =
        nm ++ "$auto" ∧
      (⟨"setuid$auto", "setuid", [⟨"uid", TypeE.mk "uid_t" .nil⟩]⟩ : Call).callName = nm :=
  rename_clone_frame ⟨"sys", "setuid16", [⟨"uid", .mk "uid_t" .nil⟩]⟩
    (fun s => if s = "setuid16" then ["setuid"] else []) (by decide)
    ⟨"setuid$auto", "setuid", [⟨"uid", .mk "uid_t" .nil⟩]⟩ (by decide)

/-- C8 (code bug): a `.tbl` file whose `os.Lstat` (or `os.Open`) fails does
abort the walk immediately and no partial table is used, but the abort
carries the error `filepath.Walk` handed the callback (`none` here) instead
of the failing call's own error: the source reads `tool.Fail(err)` where
`tool.Fail(fErr)` was intended, so the stat/open failure is not surfaced. -/
theorem readSyscallNames_drops_lstat_error :
    readSyscallNames
        [⟨"syscall_64.tbl", none, some "lstat syscall_64.tbl: permission denied",
          false, none, []⟩] =
      .error none := by
  rfl

theorem writeOutput_syscalls (includes : List String) (syscalls : List Call)
    (netlinks : List Strukt) (types : List TypeDefD) (resources : List ResourceD) :
    (writeOutput includes syscalls netlinks types resources).syscalls =
      (mergeSyscalls syscalls).filter
        (keepSyscall (sortFunc (fun a b => strCmp a.name b.name) netlinks)) := rfl

/-- C6: a policy-qualified sendmsg declaration of the merged list whose
policy is not among the sorted netlink structs is excluded from the
assembled syscall output, and one whose policy is present is included. -/
theorem dangling_policy_filter (includes : List String) (syscalls : List Call)
    (netlinks : List Strukt) (types : List TypeDefD) (resources : List ResourceD)
    (c : Call) (f : Field) (p : String)
    (hc : c ∈ mergeSyscalls syscalls)
    (hsm : c.callName = sendmsg)
    (hf : c.args[1]? = some f)
    (hlen : f.type.args.length = 2)
    (hp : policyIdent? c = some p) :
    (containsName (sortFunc (fun a b => strCmp a.name b.name) netlinks) p = false →
      c ∉ (writeOutput includes syscalls netlinks types resources).syscalls) ∧
    (containsName (sortFunc (fun a b => strCmp a.name b.name) netlinks) p = true →
      c ∈ (writeOutput includes syscalls netlinks types resources).syscalls) := by
  have hcond : sendmsgPolicyCond c = true := by
    unfold sendmsgPolicyCond msgTypeArgsLen
    rw [hf, hsm]
    simp [hlen]
  have hkeep : ∀ NS, keepSyscall NS c = containsName NS p := by
    intro NS
    unfold keepSyscall
    rw [hcond, hp]
    show (!(true && !containsName NS p)) = containsName NS p
    cases containsName NS p <;> rfl
  constructor
  · intro hfalse hmem
    rw [writeOutput_syscalls] at hmem
    have := (List.mem_filter.mp hmem).2
    rw [hkeep, hfalse] at this
    exact absurd this (by simp)
  · intro htrue
    rw [writeOutput_syscalls]
    exact List.mem_filter.mpr ⟨hc, by rw [hkeep, htrue]⟩

/-- Witness for C6: with the policy struct absent the merged sendmsg
declaration is dropped from the output; with it present it is kept. -/
theorem dangling_policy_filter_witness :
    ({ sendCall "sendmsg$m" "POL" with name := "sendmsg$m0" } ∉
      (writeOutput [] [sendCall "sendmsg$m" "POL"] [] [] []).syscalls) ∧
    ({ sendCall "sendmsg$m" "POL" with name := "sendmsg$m0" } ∈
      (writeOutput [] [sendCall "sendmsg$m" "POL"] [⟨"POL", "body"⟩] [] []).syscalls) :=
  ⟨(dangling_policy_filter [] [sendCall "sendmsg$m" "POL"] [] [] []
      { sendCall "sendmsg$m" "POL" with name := "sendmsg$m0" }
      ⟨"msg", msgType "POL"⟩ "POL" (by decide) rfl (by decide) (by decide) (by decide)).1
    (by decide),
   (dangling_policy_filter [] [sendCall "sendmsg$m" "POL"] [⟨"POL", "body"⟩] [] []
      { sendCall "sendmsg$m" "POL" with name := "sendmsg$m0" }
      ⟨"msg", msgType "POL"⟩ "POL" (by decide) rfl (by decide) (by decide) (by decide)).2
    (by decide)⟩

/-- C3 counterexample: the comparator does not order two equal-named
non-sendmsg declarations by the sorted sequence of their argument names, and
deduplication keeps the declaration that sorts first by the declaration-order
sequence instead: on `cxA`/`cxB` the spec-worded key says `cxA` comes first,
yet the implemented comparator puts `cxA` after `cxB` and the merge keeps
`cxB` from either input order. -/
theorem sort_key_not_sorted_argnames :
    specArgNameCmp cxA cxB = .lt ∧ callCmp cxA cxB = .gt ∧
    mergeSyscalls [cxA, cxB] = [cxB] ∧ mergeSyscalls [cxB, cxA] = [cxB] := by
  decide

theorem listCmpWith_map (f : β → β → Ordering) (k : α → β) :
    ∀ l₁ l₂ : List α,
    listCmpWith (fun x y => f (k x) (k y)) l₁ l₂ = listCmpWith f (l₁.map k) (l₂.map k) := by
  intro l₁
  induction l₁ with
  | nil => intro l₂; cases l₂ <;> rfl
  | cons a l ih =>
    intro l₂
    cases l₂ with
    | nil => rfl
    | cons b l₂ =>
      show (match f (k a) (k b) with | .eq => listCmpWith _ l l₂ | o => o) =
        (match f (k a) (k b) with | .eq => listCmpWith f (l.map k) (l₂.map k) | o => o)
      cases f (k a) (k b) <;> simp [ih l₂]

/-- C3 amended: for two non-sendmsg declarations with equal exposed names the
comparator orders them by the sequence of their argument names in declaration
order (not by the sorted sequence), and deduplication keeps the declaration
that sorts first by that sequence. -/
theorem callCmp_argname_order (a b : Call) (hn : a.name = b.name)
    (ha : a.callName ≠ sendmsg) (hb : b.callName ≠ sendmsg) :
    callCmp a b = listCmpWith strCmp (a.args.map Field.name) (b.args.map Field.name) ∧
    (callCmp a b = .lt → mergeSyscalls [a, b] = [a] ∧ mergeSyscalls [b, a] = [a]) := by
  have hnameEq : strCmp a.name b.name = .eq := (strCmp_eq_iff _ _).mpr hn
  have hnameEq' : strCmp b.name a.name = .eq := (strCmp_eq_iff _ _).mpr hn.symm
  have hform : callCmp a b = listCmpWith fieldCmp a.args b.args := by
    rw [callCmp_of_name_eq hnameEq, if_neg (by simpa using ha)]
  constructor
  · rw [hform]
    exact listCmpWith_map strCmp Field.name a.args b.args
  · intro hlt
    have hargs : listCmpWith fieldCmp a.args b.args = .lt := by rw [← hform]; exact hlt
    have hargs' : listCmpWith fieldCmp b.args a.args = .gt := by
      have hs := listCmpWith_symm fieldCmp_symm a.args b.args
      rw [hargs] at hs
      cases hx : listCmpWith fieldCmp b.args a.args <;> rw [hx] at hs <;>
        first | rfl | exact absurd hs (by simp [Ordering.swap])
    have hcba : callCmp b a = .gt := by
      rw [callCmp_of_name_eq hnameEq', if_neg (by simpa using hb)]
      exact hargs'
    have hnsa : (a.callName == sendmsg) = false := beq_eq_false_iff_ne.mpr ha
    have hnsb : (b.callName == sendmsg) = false := beq_eq_false_iff_ne.mpr hb
    have hne : nameEq a b = true := by
      unfold nameEq
      exact beq_iff_eq.mpr hn
    constructor
    · show compactFunc nameEq (suffixSendmsg (sortFunc callCmp [a, b]) 0) = [a]
      have h1 : sortFunc callCmp [a, b] = [a, b] := by
        simp only [sortFunc, insSort, orderedInsert]
        rw [hlt]
        rfl
      rw [h1]
      have h2 : suffixSendmsg [a, b] 0 = [a, b] := by
        simp [suffixSendmsg, hnsa, hnsb]
      rw [h2]
      show a :: compactTail nameEq a [b] = [a]
      show a :: (if nameEq a b then compactTail nameEq b [] else b :: compactTail nameEq b []) = [a]
      rw [if_pos hne]
      rfl
    · show compactFunc nameEq (suffixSendmsg (sortFunc callCmp [b, a]) 0) = [a]
      have h1 : sortFunc callCmp [b, a] = [a, b] := by
        simp only [sortFunc, insSort, orderedInsert]
        rw [hcba]
        rfl
      rw [h1]
      have h2 : suffixSendmsg [a, b] 0 = [a, b] := by
        simp [suffixSendmsg, hnsa, hnsb]
      rw [h2]
      show a :: compactTail nameEq a [b] = [a]
      show a :: (if nameEq a b then compactTail nameEq b [] else b :: compactTail nameEq b []) = [a]
      rw [if_pos hne]
      rfl

/-- Witness for the amended C3 at two concrete equal-named declarations. -/
theorem callCmp_argname_order_witness :
    callCmp ⟨"w$auto", "w", [⟨"a", .mk "int8" .nil⟩]⟩ ⟨"w$auto", "w", [⟨"b", .mk "int8" .nil⟩]⟩ =
      listCmpWith strCmp
        (([⟨"a", .mk "int8" .nil⟩] : List Field).map Field.name)
        (([⟨"b", .mk "int8" .nil⟩] : List Field).map Field.name) ∧
    (callCmp ⟨"w$auto", "w", [⟨"a", .mk "int8" .nil⟩]⟩ ⟨"w$auto", "w", [⟨"b", .mk "int8" .nil⟩]⟩ =
        .lt →
      mergeSyscalls [⟨"w$auto", "w", [⟨"a", .mk "int8" .nil⟩]⟩,
          ⟨"w$auto", "w", [⟨"b", .mk "int8" .nil⟩]⟩] =
        [⟨"w$auto", "w", [⟨"a", .mk "int8" .nil⟩]⟩] ∧
      mergeSyscalls [⟨"w$auto", "w", [⟨"b", .mk "int8" .nil⟩]⟩,
          ⟨"w$auto", "w", [⟨"a", .mk "int8" .nil⟩]⟩] =
        [⟨"w$auto", "w", [⟨"a", .mk "int8" .nil⟩]⟩]) :=
  callCmp_argname_order ⟨"w$auto", "w", [⟨"a", .mk "int8" .nil⟩]⟩
    ⟨"w$auto", "w", [⟨"b", .mk "int8" .nil⟩]⟩ rfl (by decide) (by decide)

theorem TypeList.get1_of_two {tl : TypeList} (h : 2 ≤ tl.length) :
    ∃ t, tl.get? 1 = some t := by
  cases tl with
  | nil => exact absurd h (by simp [TypeList.length])
  | cons a tl' =>
    cases tl' with
    | nil => exact absurd h (by simp [TypeList.length])
    | cons b tl'' => exact ⟨b, rfl⟩

theorem shapeOk_policyIsSome {c : Call} (h : shapeOk c = true) :
    (policyIdent? c).isSome := by
  unfold shapeOk at h
  obtain ⟨h1, h2⟩ := Bool.and_eq_true_iff.mp h
  have hlen : 2 ≤ c.args.length := of_decide_eq_true h1
  cases hf : c.args[1]? with
  | none =>
    rw [List.getElem?_eq_getElem (by omega)] at hf
    exact absurd hf (by simp)
  | some f =>
    rw [hf] at h2
    obtain ⟨h3, h4⟩ := Bool.and_eq_true_iff.mp h2
    have hlen2 : 2 ≤ f.type.args.length := of_decide_eq_true h3
    cases ht : f.type.args.get? 1 with
    | none =>
      obtain ⟨t, ht'⟩ := TypeList.get1_of_two hlen2
      rw [ht'] at ht
      exact absurd ht (by simp)
    | some t =>
      rw [ht] at h4
      have hlen3 : 2 ≤ t.args.length :=
        of_decide_eq_true (show decide (2 ≤ t.args.length) = true from h4)
      cases ht2 : t.args.get? 1 with
      | none =>
        obtain ⟨t2, ht2'⟩ := TypeList.get1_of_two hlen3
        rw [ht2'] at ht2
        exact absurd ht2 (by simp)
      | some t2 =>
        simp [policyIdent?, hf, ht, ht2]

theorem policyIdent?_congr {c d : Call} (h : c.args = d.args) :
    policyIdent? c = policyIdent? d := by
  unfold policyIdent?
  rw [h]

/-- C10 counterexample: the claim's precondition constrains only the sendmsg
declarations of the merged list, yet the comparator also indexes into the
other side of a name tie: with a well-shaped sendmsg declaration and an
argument-less non-sendmsg declaration of the same exposed name, the
precondition holds while the policy comparison hits the out-of-bounds
(`none`) branch (on which the Go code panics and the embedding falls back to
the junk value `.eq`). -/
theorem sendmsgCmp_none_reachable :
    (∀ c ∈ [sendCall "x" "POL", (⟨"x", "y", []⟩ : Call)],
      c.callName = sendmsg → shapeOk c = true) ∧
    (sendCall "x" "POL").callName = sendmsg ∧
    strCmp (sendCall "x" "POL").name (⟨"x", "y", []⟩ : Call).name = .eq ∧
    sendmsgCmp (sendCall "x" "POL") ⟨"x", "y", []⟩ = none ∧
    callCmp (sendCall "x" "POL") ⟨"x", "y", []⟩ = .eq := by
  decide

/-- C10 amended: when the shape precondition covers every sendmsg declaration
and every declaration sharing an exposed name with one, the `none` branch of
the embedded policy comparison is unreachable on name ties, and the policy
extraction performed by the assembly loop on the merged list is always
defined — the merge step is total. -/
theorem sendmsg_access_defined (L : List Call)
    (h : ∀ c ∈ L,
      (c.callName = sendmsg ∨ ∃ d ∈ L, d.callName = sendmsg ∧ d.name = c.name) →
      shapeOk c = true) :
    (∀ a ∈ L, ∀ b ∈ L, a.callName = sendmsg → strCmp a.name b.name = .eq →
      (sendmsgCmp a b).isSome) ∧
    (∀ c ∈ mergeSyscalls L, sendmsgPolicyCond c = true → (policyIdent? c).isSome) := by
  constructor
  · intro a ha b hb hsm hname
    have hsa : (policyIdent? a).isSome := shapeOk_policyIsSome (h a ha (Or.inl hsm))
    have hsb : (policyIdent? b).isSome := shapeOk_policyIsSome
      (h b hb (Or.inr ⟨a, ha, hsm, (strCmp_eq_iff _ _).mp hname⟩))
    obtain ⟨pa, hpa⟩ := Option.isSome_iff_exists.mp hsa
    obtain ⟨pb, hpb⟩ := Option.isSome_iff_exists.mp hsb
    unfold sendmsgCmp
    rw [hpa, hpb]
    rfl
  · intro c hc hcond
    have hc1 : c ∈ suffixSendmsg (sortFunc callCmp L) 0 := compactFunc_subset _ _ c hc
    obtain ⟨d, hd, hcase⟩ := mem_suffixSendmsg _ 0 c hc1
    have hdL : d ∈ L := mem_sortFunc.mp hd
    have hargs : c.args = d.args ∧ c.callName = d.callName := by
      rcases hcase with ⟨_, m, _, hx⟩ | ⟨_, hx⟩ <;> rw [hx] <;> exact ⟨rfl, rfl⟩
    have hcsm : c.callName = sendmsg := by
      unfold sendmsgPolicyCond at hcond
      exact beq_iff_eq.mp (Bool.and_eq_true_iff.mp hcond).1
    have hdsm : d.callName = sendmsg := by rw [← hargs.2]; exact hcsm
    rw [policyIdent?_congr hargs.1]
    exact shapeOk_policyIsSome (h d hdL (Or.inl hdsm))

/-- Witness for the amended C10 at a concrete one-element list. -/
theorem sendmsg_access_defined_witness :
    (∀ a ∈ [sendCall "s$1" "POL"], ∀ b ∈ [sendCall "s$1" "POL"],
      a.callName = sendmsg → strCmp a.name b.name = .eq → (sendmsgCmp a b).isSome) ∧
    (∀ c ∈ mergeSyscalls [sendCall "s$1" "POL"], sendmsgPolicyCond c = true →
      (policyIdent? c).isSome) :=
  sendmsg_access_defined [sendCall "s$1" "POL"] (by decide)

/-- C4: on a name-sorted syscall list, every sendmsg declaration of the
suffixed list is some input declaration with a decimal counter appended to
its exposed name; any two sendmsg declarations of the suffixed list have
distinct exposed names; deduplication by exposed name therefore retains every
sendmsg declaration; and the assembly filter removes the suffix from no
field — every output syscall is an element of the deduplicated suffixed list,
unmodified. -/
theorem sendmsg_suffix_unique (l : List Call)
    (hs : l.Pairwise (fun a b => strCmp a.name b.name ≠ .gt)) :
    (∀ x ∈ suffixSendmsg l 0, x.callName = sendmsg →
      ∃ y ∈ l, ∃ m, x = { y with name := y.name ++ itoa m }) ∧
    (suffixSendmsg l 0).Pairwise
      (fun a b => a.callName = sendmsg → b.callName = sendmsg → a.name ≠ b.name) ∧
    (∀ x ∈ suffixSendmsg l 0, x.callName = sendmsg →
      x ∈ compactFunc nameEq (suffixSendmsg l 0)) ∧
    (∀ (netlinks : List Strukt) (x : Call),
      x ∈ (compactFunc nameEq (suffixSendmsg l 0)).filter (keepSyscall netlinks) →
      x ∈ compactFunc nameEq (suffixSendmsg l 0)) := by
  refine ⟨?_, ?_, ?_, ?_⟩
  · intro x hx hsm
    obtain ⟨y, hy, hcase⟩ := mem_suffixSendmsg l 0 x hx
    rcases hcase with ⟨_, m, _, hx'⟩ | ⟨hns, hx'⟩
    · exact ⟨y, hy, m, hx'⟩
    · rw [hx'] at hsm
      exact absurd hsm hns
  · exact (suffixSendmsg_pairwise l 0 hs).imp fun hab _ hb => hab hb
  · exact fun x hx hsm => sendmsg_retained l hs x hx hsm
  · intro netlinks x hx
    exact (List.mem_filter.mp hx).1

/-- Witness for C4: with two sendmsg declarations of equal exposed name, the
first suffixed declaration survives deduplication. -/
theorem sendmsg_suffix_unique_witness :
    { sendCall "sendmsg$a" "P1" with name := "sendmsg$a0" } ∈
      compactFunc nameEq (suffixSendmsg
        [sendCall "sendmsg$a" "P1", sendCall "sendmsg$a" "P2", ⟨"zz", "zz", []⟩] 0) :=
  (sendmsg_suffix_unique
    [sendCall "sendmsg$a" "P1", sendCall "sendmsg$a" "P2", ⟨"zz", "zz", []⟩]
    (by decide)).2.2.1 _ (by decide) rfl

theorem mem_usedPolicies {L : List Call} {x : String}
    (hpol : ∀ c ∈ L, sendmsgPolicyCond c = true → (policyIdent? c).isSome) :
    x ∈ usedPolicies L ↔
      ∃ c ∈ L, sendmsgPolicyCond c = true ∧ policyIdent? c = some x := by
  unfold usedPolicies
  rw [List.mem_filterMap]
  constructor
  · rintro ⟨c, hc, heq⟩
    by_cases hcond : sendmsgPolicyCond c = true
    · rw [if_pos hcond] at heq
      have heq' := Option.some.inj heq
      obtain ⟨p, hp⟩ := Option.isSome_iff_exists.mp (hpol c hc hcond)
      rw [hp] at heq'
      refine ⟨c, hc, hcond, ?_⟩
      rw [hp]
      simpa using heq'
    · rw [if_neg hcond] at heq
      exact absurd heq (by simp)
  · rintro ⟨c, hc, hcond, hp⟩
    refine ⟨c, hc, ?_⟩
    rw [if_pos hcond, hp]
    rfl

theorem enumFrom_filter_len (x : String) :
    ∀ (names : List String) (k : Nat),
    ((List.enumFrom k names).filter fun p => p.2 == x).length =
      (names.filter fun n => n == x).length := by
  intro names
  induction names with
  | nil => intro k; rfl
  | cons n names ih =>
    intro k
    simp only [List.enumFrom_cons, List.filter_cons]
    cases hx : (n == x) <;> simp [hx, ih (k + 1)]

theorem mem_enumFrom_getElem? {names : List String} {p : Nat × String}
    (hp : p ∈ List.enumFrom 0 names) : names[p.1]? = some p.2 := by
  obtain ⟨i, x⟩ := p
  obtain ⟨_, h2, h3⟩ := List.mem_enumFrom hp
  simp only [Nat.zero_add] at h2
  simp only [Nat.sub_zero] at h3
  rw [List.getElem?_eq_getElem h2, h3]

/-- C5: in the assembled output, every sorted netlink struct referenced by a
retained netlink-send declaration contributes no arm to the synthesized
union, every unreferenced one contributes exactly one arm, and each arm pairs
a struct name with its positional index in the arm list.  The hypotheses are
the invariants the surrounding code provides: struct names are distinct (the
spec notes kernel names are unique by construction) and the policy access of
every merged policy-qualified sendmsg declaration is defined (claim C10's
concern). -/
theorem union_arms_unused (includes : List String) (syscalls : List Call)
    (netlinks : List Strukt) (types : List TypeDefD) (resources : List ResourceD)
    (NS : List Strukt) (hNS : NS = sortFunc (fun a b => strCmp a.name b.name) netlinks)
    (MS : List Call) (hMS : MS = mergeSyscalls syscalls)
    (hdist : NS.Pairwise (fun a b => a.name ≠ b.name))
    (hpol : ∀ c ∈ MS, sendmsgPolicyCond c = true → (policyIdent? c).isSome)
    (s : Strukt) (hs : s ∈ NS) :
    (writeOutput includes syscalls netlinks types resources).arms =
      unionArms (unusedNetlinkNames NS (usedPolicies MS)) ∧
    (writeOutput includes syscalls netlinks types resources).syscalls =
      MS.filter (keepSyscall NS) ∧
    ((∃ c ∈ MS.filter (keepSyscall NS), sendmsgPolicyCond c = true ∧
        policyIdent? c = some s.name) →
      (unionArms (unusedNetlinkNames NS (usedPolicies MS))).filter
        (fun p => p.2 == s.name) = []) ∧
    (¬ (∃ c ∈ MS.filter (keepSyscall NS), sendmsgPolicyCond c = true ∧
        policyIdent? c = some s.name) →
      ((unionArms (unusedNetlinkNames NS (usedPolicies MS))).filter
        (fun p => p.2 == s.name)).length = 1) ∧
    (∀ p ∈ unionArms (unusedNetlinkNames NS (usedPolicies MS)),
      (unusedNetlinkNames NS (usedPolicies MS))[p.1]? = some p.2) := by
  subst hNS
  subst hMS
  have hcont : containsName (sortFunc (fun a b => strCmp a.name b.name) netlinks) s.name =
      true := by
    unfold containsName
    exact List.any_eq_true.mpr ⟨s, hs, by simp⟩
  have hRef :
      (∃ c ∈ (mergeSyscalls syscalls).filter
          (keepSyscall (sortFunc (fun a b => strCmp a.name b.name) netlinks)),
        sendmsgPolicyCond c = true ∧ policyIdent? c = some s.name) ↔
      s.name ∈ usedPolicies (mergeSyscalls syscalls) := by
    rw [mem_usedPolicies hpol]
    constructor
    · rintro ⟨c, hc, hcond, hp⟩
      exact ⟨c, (List.mem_filter.mp hc).1, hcond, hp⟩
    · rintro ⟨c, hc, hcond, hp⟩
      refine ⟨c, List.mem_filter.mpr ⟨hc, ?_⟩, hcond, hp⟩
      unfold keepSyscall
      rw [hcond, hp]
      show (!(true && !containsName (sortFunc (fun a b => strCmp a.name b.name) netlinks)
        s.name)) = true
      rw [hcont]
      rfl
  refine ⟨rfl, rfl, ?_, ?_, ?_⟩
  · intro href
    have hused := hRef.mp href
    apply List.filter_eq_nil_iff.mpr
    rintro ⟨i, nm⟩ hp hpe
    have hnm : nm = s.name := beq_iff_eq.mp hpe
    have hmem : nm ∈ unusedNetlinkNames (sortFunc (fun a b => strCmp a.name b.name) netlinks)
        (usedPolicies (mergeSyscalls syscalls)) := by
      obtain ⟨_, h2, h3⟩ := List.mem_enumFrom hp
      simp only [Nat.zero_add] at h2
      rw [h3]
      exact List.getElem_mem _
    unfold unusedNetlinkNames at hmem
    have := (List.mem_filter.mp hmem).2
    rw [hnm] at this
    simp [hused] at this
  · intro href
    have hnused : s.name ∉ usedPolicies (mergeSyscalls syscalls) := fun hu => href (hRef.mpr hu)
    rw [show unionArms (unusedNetlinkNames (sortFunc (fun a b => strCmp a.name b.name) netlinks)
        (usedPolicies (mergeSyscalls syscalls))) =
      List.enumFrom 0 (unusedNetlinkNames (sortFunc (fun a b => strCmp a.name b.name) netlinks)
        (usedPolicies (mergeSyscalls syscalls))) from rfl]
    rw [enumFrom_filter_len]
    unfold unusedNetlinkNames
    rw [List.filter_filter]
    have hfc : ((sortFunc (fun a b => strCmp a.name b.name) netlinks).map Strukt.name).filter
        (fun a => (a == s.name) &&
          !(usedPolicies (mergeSyscalls syscalls)).contains a) =
        ((sortFunc (fun a b => strCmp a.name b.name) netlinks).map Strukt.name).filter
          (fun a => a == s.name) := by
      apply List.filter_congr
      intro a _
      cases ha : (a == s.name)
      · rfl
      · have : a = s.name := beq_iff_eq.mp ha
        subst this
        simp [hnused]
    rw [hfc]
    have hnodup : (((sortFunc (fun a b => strCmp a.name b.name) netlinks).map
        Strukt.name)).Nodup := List.pairwise_map.mpr hdist
    have hmem : s.name ∈ ((sortFunc (fun a b => strCmp a.name b.name) netlinks).map
        Strukt.name) := List.mem_map.mpr ⟨s, hs, rfl⟩
    calc (((sortFunc (fun a b => strCmp a.name b.name) netlinks).map Strukt.name).filter
          (fun a => a == s.name)).length
        = ((sortFunc (fun a b => strCmp a.name b.name) netlinks).map Strukt.name).countP
            (fun a => a == s.name) := (List.countP_eq_length_filter _ _).symm
      _ = ((sortFunc (fun a b => strCmp a.name b.name) netlinks).map Strukt.name).count
            s.name := rfl
      _ = 1 := List.count_eq_one_of_mem hnodup hmem
  · intro p hp
    exact mem_enumFrom_getElem? hp

/-- Witness for C5 at a concrete merged state: one referenced and one
unreferenced struct. -/
theorem union_arms_unused_witness :
    ((writeOutput [] [sendCall "sendmsg$m" "POL"] [⟨"POL", "b"⟩, ⟨"QOL", "b"⟩] [] []).arms =
      unionArms (unusedNetlinkNames
        (sortFunc (fun a b => strCmp a.name b.name) [⟨"POL", "b"⟩, ⟨"QOL", "b"⟩])
        (usedPolicies (mergeSyscalls [sendCall "sendmsg$m" "POL"])))) ∧
    ((writeOutput [] [sendCall "sendmsg$m" "POL"] [⟨"POL", "b"⟩, ⟨"QOL", "b"⟩] [] []).syscalls =
      (mergeSyscalls [sendCall "sendmsg$m" "POL"]).filter
        (keepSyscall (sortFunc (fun a b => strCmp a.name b.name) [⟨"POL", "b"⟩, ⟨"QOL", "b"⟩]))) ∧
    ((∃ c ∈ (mergeSyscalls [sendCall "sendmsg$m" "POL"]).filter
        (keepSyscall (sortFunc (fun a b => strCmp a.name b.name) [⟨"POL", "b"⟩, ⟨"QOL", "b"⟩])),
        sendmsgPolicyCond c = true ∧ policyIdent? c = some (Strukt.mk "POL" "b").name) →
      (unionArms (unusedNetlinkNames
        (sortFunc (fun a b => strCmp a.name b.name) [⟨"POL", "b"⟩, ⟨"QOL", "b"⟩])
        (usedPolicies (mergeSyscalls [sendCall "sendmsg$m" "POL"])))).filter
          (fun p => p.2 == (Strukt.mk "POL" "b").name) = []) ∧
    (¬ (∃ c ∈ (mergeSyscalls [sendCall "sendmsg$m" "POL"]).filter
        (keepSyscall (sortFunc (fun a b => strCmp a.name b.name) [⟨"POL", "b"⟩, ⟨"QOL", "b"⟩])),
        sendmsgPolicyCond c = true ∧ policyIdent? c = some (Strukt.mk "POL" "b").name) →
      ((unionArms (unusedNetlinkNames
        (sortFunc (fun a b => strCmp a.name b.name) [⟨"POL", "b"⟩, ⟨"QOL", "b"⟩])
        (usedPolicies (mergeSyscalls [sendCall "sendmsg$m" "POL"])))).filter
          (fun p => p.2 == (Strukt.mk "POL" "b").name)).length = 1) ∧
    (∀ p ∈ unionArms (unusedNetlinkNames
        (sortFunc (fun a b => strCmp a.name b.name) [⟨"POL", "b"⟩, ⟨"QOL", "b"⟩])
        (usedPolicies (mergeSyscalls [sendCall "sendmsg$m" "POL"]))),
      (unusedNetlinkNames
        (sortFunc (fun a b => strCmp a.name b.name) [⟨"POL", "b"⟩, ⟨"QOL", "b"⟩])
        (usedPolicies (mergeSyscalls [sendCall "sendmsg$m" "POL"])))[p.1]? = some p.2) :=
  union_arms_unused [] [sendCall "sendmsg$m" "POL"] [⟨"POL", "b"⟩, ⟨"QOL", "b"⟩] [] []
    _ rfl _ rfl (by decide) (by decide) ⟨"POL", "b"⟩ (by decide)

/-! ### Determinism of the pipeline under permutation of the drained results -/

theorem collectSyscalls_perm (rename : String → List String) {c₁ c₂ : List (List Node)}
    (h : c₁.Perm c₂) :
    (collectSyscalls rename c₁).Perm (collectSyscalls rename c₂) := by
  unfold collectSyscalls
  have hf : ∀ l : List Node,
      (l.flatMap fun n => match n with | .call c => renameSyscall c rename | _ => []) =
      (l.map fun n => match n with | .call c => renameSyscall c rename | _ => []).flatten := by
    intro l
    simp [List.flatMap]
  rw [hf, hf]
  exact (h.flatten.map _).flatten

theorem collectNetlinks_perm {c₁ c₂ : List (List Node)} (h : c₁.Perm c₂) :
    (collectNetlinks c₁).Perm (collectNetlinks c₂) :=
  h.flatten.filterMap _

theorem collectIncludes_perm {c₁ c₂ : List (List Node)} (h : c₁.Perm c₂) :
    (collectIncludes c₁).Perm (collectIncludes c₂) :=
  h.flatten.filterMap _

theorem collectTypeDefs_perm {c₁ c₂ : List (List Node)} (h : c₁.Perm c₂) :
    (collectTypeDefs c₁).Perm (collectTypeDefs c₂) :=
  h.flatten.filterMap _

theorem collectResources_perm {c₁ c₂ : List (List Node)} (h : c₁.Perm c₂) :
    (collectResources c₁).Perm (collectResources c₂) :=
  h.flatten.filterMap _

theorem strCmp_gt_symm {a b : String} (h : strCmp a b = .gt) : strCmp b a = .lt := by
  have hs := strCmp_symm a b
  rw [h] at hs
  cases hx : strCmp b a <;> rw [hx] at hs <;>
    first | rfl | exact absurd hs (by simp [Ordering.swap])

theorem sortFunc_det_key (k : α → String) (l₁ l₂ : List α) (h : l₁.Perm l₂)
    (hinj : ∀ x ∈ l₁, ∀ y ∈ l₁, k x = k y → x = y) :
    sortFunc (fun a b => strCmp (k a) (k b)) l₁ =
      sortFunc (fun a b => strCmp (k a) (k b)) l₂ := by
  apply sortFunc_det _ _ _ h
  · intro x _ y _
    by_cases hg : strCmp (k x) (k y) = .gt
    · right
      rw [strCmp_gt_symm hg]
      simp
    · exact Or.inl hg
  · intro x _ y _ z _
    exact strCmp_le_trans _ _ _
  · intro x hx y hy h1 h2
    have heq : strCmp (k x) (k y) = .eq := by
      cases hc : strCmp (k x) (k y)
      · exact absurd (strCmp_symm_case hc) h2
      · rfl
      · exact absurd hc h1
    exact hinj x hx y hy ((strCmp_eq_iff _ _).mp heq)

theorem sortFunc_det_str (l₁ l₂ : List String) (h : l₁.Perm l₂) :
    sortFunc strCmp l₁ = sortFunc strCmp l₂ := by
  apply sortFunc_det _ _ _ h
  · intro x _ y _
    by_cases hg : strCmp x y = .gt
    · right
      rw [strCmp_gt_symm hg]
      simp
    · exact Or.inl hg
  · intro x _ y _ z _
    exact strCmp_le_trans _ _ _
  · intro x _ y _ h1 h2
    have heq : strCmp x y = .eq := by
      cases hc : strCmp x y
      · exact absurd (strCmp_symm_case hc) h2
      · rfl
      · exact absurd hc h1
    exact (strCmp_eq_iff _ _).mp heq

theorem sortFunc_det_call (L₁ L₂ : List Call) (h : L₁.Perm L₂)
    (hnc : ∀ a ∈ L₁, ∀ b ∈ L₁, a.name = b.name → a.callName = b.callName)
    (hpol : ∀ a ∈ L₁, a.callName = sendmsg → (policyIdent? a).isSome)
    (hties : ∀ a ∈ L₁, ∀ b ∈ L₁, callCmp a b = .eq → a = b) :
    sortFunc callCmp L₁ = sortFunc callCmp L₂ := by
  apply sortFunc_det _ _ _ h
  · intro x hx y hy
    have hsym := callCmp_symm_of (hnc x hx y hy) (hpol x hx) (hpol y hy)
    by_cases hg : callCmp x y = .gt
    · right
      rw [hg] at hsym
      intro hyx
      rw [hyx] at hsym
      exact absurd hsym (by simp [Ordering.swap])
    · exact Or.inl hg
  · intro x hx y hy z hz h1 h2
    exact callCmp_le_trans_of (hnc x hx y hy) (hnc y hy z hz)
      (hpol x hx) (hpol y hy) (hpol z hz) h1 h2
  · intro x hx y hy h1 h2
    exact hties x hx y hy
      (callCmp_eq_of_le_ge (callCmp_symm_of (hnc x hx y hy) (hpol x hx) (hpol y hy)) h1 h2)

/-- C1 amended: the pipeline's output is invariant under permuting the drain
order of the per-file fragment lists, provided the merge keys determine the
declarations: comparator-tied syscall declarations are equal (with coherent
entry points and defined policy accesses) and equal-named netlink structs,
resources and type definitions are equal.  Without those hypotheses the claim
fails, see the counterexample. -/
theorem pipeline_det (rename : String → List String) (chunks₁ chunks₂ : List (List Node))
    (hperm : chunks₁.Perm chunks₂)
    (hnc : ∀ a ∈ collectSyscalls rename chunks₁, ∀ b ∈ collectSyscalls rename chunks₁,
      a.name = b.name → a.callName = b.callName)
    (hpol : ∀ a ∈ collectSyscalls rename chunks₁,
      a.callName = sendmsg → (policyIdent? a).isSome)
    (hties : ∀ a ∈ collectSyscalls rename chunks₁, ∀ b ∈ collectSyscalls rename chunks₁,
      callCmp a b = .eq → a = b)
    (hnet : ∀ a ∈ collectNetlinks chunks₁, ∀ b ∈ collectNetlinks chunks₁,
      a.name = b.name → a = b)
    (hres : ∀ a ∈ collectResources chunks₁, ∀ b ∈ collectResources chunks₁,
      a.name = b.name → a = b)
    (htd : ∀ a ∈ collectTypeDefs chunks₁, ∀ b ∈ collectTypeDefs chunks₁,
      a.name = b.name → a = b) :
    pipeline rename chunks₁ = pipeline rename chunks₂ := by
  have hps : sortFunc callCmp (collectSyscalls rename chunks₁) =
      sortFunc callCmp (collectSyscalls rename chunks₂) :=
    sortFunc_det_call _ _ (collectSyscalls_perm rename hperm) hnc hpol hties
  have hpn : sortFunc (fun a b => strCmp a.name b.name) (collectNetlinks chunks₁) =
      sortFunc (fun a b => strCmp a.name b.name) (collectNetlinks chunks₂) :=
    sortFunc_det_key Strukt.name _ _ (collectNetlinks_perm hperm) hnet
  have hpr : sortFunc (fun a b => strCmp a.name b.name) (collectResources chunks₁) =
      sortFunc (fun a b => strCmp a.name b.name) (collectResources chunks₂) :=
    sortFunc_det_key ResourceD.name _ _ (collectResources_perm hperm) hres
  have hpt : sortFunc (fun a b => strCmp a.name b.name) (collectTypeDefs chunks₁) =
      sortFunc (fun a b => strCmp a.name b.name) (collectTypeDefs chunks₂) :=
    sortFunc_det_key TypeDefD.name _ _ (collectTypeDefs_perm hperm) htd
  have hpi : sortFunc strCmp (collectIncludes chunks₁) =
      sortFunc strCmp (collectIncludes chunks₂) :=
    sortFunc_det_str _ _ (collectIncludes_perm hperm)
  simp only [pipeline, writeOutput, mergeSyscalls]
  rw [hps, hpn, hpr, hpt, hpi]

/-- C1 counterexample: two per-file results each carrying one syscall
declaration with the same exposed name and argument names but different
argument types tie under the comparator; deduplication then keeps whichever
the drain order put first, so the two drain orders produce different
outputs. -/
theorem pipeline_not_order_invariant :
    (([[Node.call ⟨"a", "foo", [⟨"a", .mk "int8" .nil⟩]⟩],
       [Node.call ⟨"a", "foo", [⟨"a", .mk "int9" .nil⟩]⟩]] : List (List Node)).Perm
      [[Node.call ⟨"a", "foo", [⟨"a", .mk "int9" .nil⟩]⟩],
       [Node.call ⟨"a", "foo", [⟨"a", .mk "int8" .nil⟩]⟩]]) ∧
    pipeline (fun s => if s = "foo" then ["foo"] else [])
        [[Node.call ⟨"a", "foo", [⟨"a", .mk "int8" .nil⟩]⟩],
         [Node.call ⟨"a", "foo", [⟨"a", .mk "int9" .nil⟩]⟩]] ≠
      pipeline (fun s => if s = "foo" then ["foo"] else [])
        [[Node.call ⟨"a", "foo", [⟨"a", .mk "int9" .nil⟩]⟩],
         [Node.call ⟨"a", "foo", [⟨"a", .mk "int8" .nil⟩]⟩]] := by
  decide

/-- Witness for the amended C1 at two concrete drain orders of the same
multiset. -/
theorem pipeline_det_witness :
    pipeline (fun s => if s = "foo" then ["foo"] else [])
        [[Node.call ⟨"a", "foo", []⟩], [Node.includeDir "x.h"]] =
      pipeline (fun s => if s = "foo" then ["foo"] else [])
        [[Node.includeDir "x.h"], [Node.call ⟨"a", "foo", []⟩]] :=
  pipeline_det (fun s => if s = "foo" then ["foo"] else [])
    [[Node.call ⟨"a", "foo", []⟩], [Node.includeDir "x.h"]]
    [[Node.includeDir "x.h"], [Node.call ⟨"a", "foo", []⟩]]
    (by decide) (by decide) (by decide) (by decide) (by decide) (by decide) (by decide)

end Declextract
